import Mathlib

/-
Verification of the ppgs evaluation core: a shallow embedding of
src/ppgs/evaluate/metrics.py (streaming metric accumulators and the
Jensen-Shannon divergence function) and of the CTC blank-collapse
decoding backends in src/ppgs/assets/configs/w2v2fb-ctc.py, together
with proofs and refutations of the specified properties.

Numeric conventions of the embedding:
- logit / score tensors are embedded with exact rationals (the metric
  and decoding algorithms only compare, copy and count entries);
- the Jensen-Shannon divergence, which uses exp / log / sqrt, is
  embedded over the reals;
- Python / torch scalar division at report time is embedded with an
  explicit IEEE-style result type distinguishing finite values, NaN
  and infinities, and report is total, returning an Except to record
  exceptions raised by Python scalar division.
-/

namespace Ppgs

/-! ### List index helpers -/

theorem getD_set_self {α : Type} (l : List α) (i : ℕ) (a d : α) (h : i < l.length) :
    (l.set i a).getD i d = a := by
  simp [List.getD, List.getElem?_set_self, h]

theorem getD_set_ne {α : Type} (l : List α) (i j : ℕ) (a : α) (d : α) (h : i ≠ j) :
    (l.set i a).getD j d = l.getD j d := by
  simp [List.getD, List.getElem?_set_ne, h]

theorem getD_of_le {α : Type} (l : List α) (d : α) (i : ℕ) (h : l.length ≤ i) :
    l.getD i d = d := by
  simp [List.getD, List.getElem?_eq_none, h]

theorem getD_map_of_lt {α β : Type} (f : α → β) (l : List α) (i : ℕ) (d : α) (d' : β)
    (h : i < l.length) : (l.map f).getD i d' = f (l.getD i d) := by
  rw [List.getD_eq_getElem _ _ (by simpa using h), List.getD_eq_getElem _ _ h]
  simp

/-! ### Arg-max over a row of scores

`argmaxIdx` embeds `tensor.argmax` over one dimension: the index of the
first maximal entry (torch returns the first occurrence of the maximum).
-/

def argmaxFrom : ℕ → ℕ → ℚ → List ℚ → ℕ
  | _, best, _, [] => best
  | i, best, bv, x :: xs =>
    if bv < x then argmaxFrom (i + 1) i x xs else argmaxFrom (i + 1) best bv xs

def argmaxIdx : List ℚ → ℕ
  | [] => 0
  | x :: xs => argmaxFrom 1 0 x xs

theorem argmaxFrom_lt (xs : List ℚ) : ∀ (i best : ℕ) (bv : ℚ) (n : ℕ),
    best < n → i + xs.length ≤ n → argmaxFrom i best bv xs < n := by
  induction xs with
  | nil => intro i best bv n hb _; simpa [argmaxFrom] using hb
  | cons x xs ih =>
    intro i best bv n hb hl
    simp only [argmaxFrom]
    rcases lt_or_le bv x with h | h
    · rw [if_pos h]
      exact ih (i + 1) i x n (by simp at hl; omega) (by simp at hl ⊢; omega)
    · rw [if_neg (not_lt.mpr h)]
      exact ih (i + 1) best bv n hb (by simp at hl ⊢; omega)

theorem argmaxIdx_lt (xs : List ℚ) (h : xs ≠ []) : argmaxIdx xs < xs.length := by
  match xs, h with
  | x :: xs, _ =>
    simpa [argmaxIdx] using argmaxFrom_lt xs 1 0 x (x :: xs).length (by simp) (by simp; omega)

/-! ### Model of Python / torch scalar division at report time

After any `update`, the running counters of `Accuracy` are torch
tensors (integer `0 + tensor` promotes), so `true_positives / count`
true-divides to a float tensor: `0 / 0` is NaN, `x / 0` is ±inf.
On a freshly constructed or freshly reset instance the counters are
still Python ints, so `0 / 0` raises ZeroDivisionError, and on a
Python float the `.cpu()` call of `Accuracy.__call__` does not exist.
`TopKAccuracy` increments its counters with Python `+= 1`, so they are
always Python ints.
-/

inductive FloatVal where
  | finite (q : ℚ)
  | nan
  | posinf
  | neginf
deriving DecidableEq

def divF (a b : ℚ) : FloatVal :=
  if b ≠ 0 then .finite (a / b)
  else if a = 0 then .nan
  else if 0 < a then .posinf
  else .neginf

/-! ### Batches

A batch of flattened predictions and targets: `preds` is the `[N, C]`
score tensor (each row an unnormalized class-score vector of length
`numClasses`, the tensor's trailing shape entry), `targets` the `[N]`
integer target tensor, with `-100` the ignore sentinel.
-/

structure Batch where
  numClasses : ℕ
  preds : List (List ℚ)
  targets : List ℤ

def Batch.wf (b : Batch) : Prop :=
  b.preds.length = b.targets.length ∧ ∀ p ∈ b.preds, p.length = b.numClasses

/-! ### Accuracy (metrics.py, class Accuracy) -/

structure AccState where
  true_positives : ℕ
  count : ℕ
  isTensor : Bool
deriving DecidableEq

def AccState.reset : AccState := ⟨0, 0, false⟩

/-- Embedding of `Accuracy.update`: predicted category is the maximum
logit; `true_positives += (argmax(pred) == target ∧ target ≠ -100).sum()`;
`count += (target ≠ -100).sum()`. Both `+=` promote the counters to
tensors, recorded by `isTensor`. -/
def AccState.update (s : AccState) (b : Batch) : AccState :=
  let predicted_indices : List ℤ := b.preds.map (fun r => (argmaxIdx r : ℤ))
  { true_positives := s.true_positives +
      (predicted_indices.zip b.targets).countP (fun r => decide (r.1 = r.2 ∧ r.2 ≠ -100)),
    count := s.count + b.targets.countP (fun t => decide (t ≠ -100)),
    isTensor := true }

/-- Embedding of `Accuracy.__call__`:
`float((self.true_positives / self.count).cpu())`. On tensor counters
this true-divides (0/0 gives NaN); on Python int counters it raises
ZeroDivisionError when `count = 0` and otherwise produces a Python
float, on which the subsequent `.cpu()` raises AttributeError. -/
def AccState.report (s : AccState) : Except String FloatVal :=
  if s.isTensor then .ok (divF s.true_positives s.count)
  else if s.count = 0 then .error "ZeroDivisionError"
  else .error "AttributeError"

/-! ### TopKAccuracy (metrics.py, class TopKAccuracy) -/

structure TopKState where
  k : ℕ
  correct_in_top_k : ℕ
  count : ℕ
deriving DecidableEq

def TopKState.reset (k : ℕ) : TopKState := ⟨k, 0, 0⟩

/-- First maximal candidate by score (index, score); embeds the
selection order of `torch.topk` for pairwise-distinct scores. -/
def pickTop (cands : List (ℕ × ℚ)) : Option (ℕ × ℚ) :=
  cands.foldl (fun acc c =>
    match acc with
    | none => some c
    | some b => if b.2 < c.2 then some c else some b) none

def topkGo : ℕ → List (ℕ × ℚ) → List ℕ
  | 0, _ => []
  | k + 1, cands =>
    match pickTop cands with
    | none => []
    | some b => b.1 :: topkGo k (cands.filter (fun c => decide (c.1 ≠ b.1)))

/-- Embedding of `torch.topk(xs, k).indices`: the indices of the `k`
highest-scoring classes. -/
def topkIndices (k : ℕ) (xs : List ℚ) : List ℕ := topkGo k xs.enum

/-- One iteration of the `TopKAccuracy.update` loop body: increment
`correct_in_top_k` once if the target index is among the row's top-k
indices, and increment `count` once unconditionally. -/
def topkStep (st : TopKState) (r : List ℚ × ℤ) : TopKState :=
  { st with
    correct_in_top_k := st.correct_in_top_k +
      (if (topkIndices st.k r.1).any (fun j => decide ((j : ℤ) = r.2)) then 1 else 0),
    count := st.count + 1 }

/-- Embedding of `TopKAccuracy.update`: for each row, increment
`correct_in_top_k` once if the target index is among the row's top-k
indices, and increment `count` once unconditionally (no ignore-index
masking). The Python loop over `range(len(target_indices))` indexing
`top_k_indices[i]` is embedded as a fold over the zipped rows. -/
def TopKState.update (s : TopKState) (b : Batch) : TopKState :=
  (b.preds.zip b.targets).foldl topkStep s

/-- Embedding of `TopKAccuracy.__call__`:
`float(self.correct_in_top_k / self.count)` on Python ints — raises
ZeroDivisionError when `count = 0`. -/
def TopKState.report (s : TopKState) : Except String FloatVal :=
  if s.count = 0 then .error "ZeroDivisionError"
  else .ok (.finite ((s.correct_in_top_k : ℚ) / (s.count : ℚ)))

/-! ### CategoricalAccuracy (metrics.py, class CategoricalAccuracy)

The embedding covers the already-flattened `[N, C]` input (the 3-D
branch of the source only transposes and flattens to this shape).
Boolean-mask indexing of the two tensors by `target != -100` is
embedded as filtering the zipped rows.
-/

def oneHot (C : ℕ) (i : ℤ) : List ℕ :=
  (List.range C).map (fun j : ℕ => if i = (j : ℤ) then 1 else 0)

def vecAdd (u v : List ℕ) : List ℕ := List.zipWith (· + ·) u v

def vecMul (u v : List ℕ) : List ℕ := List.zipWith (· * ·) u v

structure CatState where
  totals : Option (List ℕ)
  counts : Option (List ℕ)

def CatState.reset : CatState := ⟨none, none⟩

/-- The rows kept by the `target_indices != -100` boolean mask. -/
def keptRows (b : Batch) : List (List ℚ × ℤ) :=
  (b.preds.zip b.targets).filter (fun r => decide (r.2 ≠ -100))

/-- The batch contribution `torch.mul(predicted_onehots, target_onehots).sum(dim=0)`
of `CategoricalAccuracy.update`: per-class true-positive counts. -/
def marginalTotals (b : Batch) : List ℕ :=
  (List.zipWith vecMul
    ((keptRows b).map (fun r => oneHot b.numClasses ((argmaxIdx r.1 : ℤ))))
    ((keptRows b).map (fun r => oneHot b.numClasses r.2))).foldl vecAdd
    (List.replicate b.numClasses 0)

/-- The batch contribution `target_onehots.sum(dim=0)` of
`CategoricalAccuracy.update`: per-class occurrence counts. -/
def marginalCounts (b : Batch) : List ℕ :=
  ((keptRows b).map (fun r => oneHot b.numClasses r.2)).foldl vecAdd
    (List.replicate b.numClasses 0)

/-- Embedding of `CategoricalAccuracy.update`: drop ignored rows,
one-hot the arg-max predictions and the targets with
`num_classes = predicted_logits.shape[-1]`, accumulate
`totals += mul(pred_onehots, target_onehots).sum(dim=0)` and
`counts += target_onehots.sum(dim=0)`, allocating lazily on first
update. -/
def CatState.update (s : CatState) (b : Batch) : CatState :=
  { totals := some (match s.totals with
      | none => marginalTotals b
      | some v => vecAdd v (marginalTotals b)),
    counts := some (match s.counts with
      | none => marginalCounts b
      | some v => vecAdd v (marginalCounts b)) }

def sumOpt (o : Option (List ℕ)) : ℕ :=
  match o with
  | none => 0
  | some v => v.sum

/-- Relation between a categorical-accuracy state and a scalar-accuracy
state fed the same stream: the per-class vectors sum to the scalar
counters, and the lazily allocated vectors have length `C`. -/
def CatInv (s : CatState) (a : AccState) (C : ℕ) : Prop :=
  sumOpt s.totals = a.true_positives ∧ sumOpt s.counts = a.count
  ∧ (∀ v, s.totals = some v → v.length = C)
  ∧ (∀ v, s.counts = some v → v.length = C)

/-- The number of rows of a batch whose arg-max prediction equals the
target and whose target is not the ignore sentinel `-100`. -/
def accTP (b : Batch) : ℕ :=
  ((b.preds.map (fun r => (argmaxIdx r : ℤ))).zip b.targets).countP
    (fun r => decide (r.1 = r.2 ∧ r.2 ≠ -100))

/-- The number of targets of a batch that are not the ignore sentinel. -/
def accCnt (b : Batch) : ℕ :=
  b.targets.countP (fun t => decide (t ≠ -100))

/-! ### Jensen-Shannon divergence (metrics.py, jensenShannonDivergence)

Embedded over the reals. All tensor operations of the source are
elementwise or row-wise, so the batched computation is the row-wise
computation summed over the zipped batch rows (the final `.sum(dim=0)`).
`torch.nan_to_num` appears explicitly only where a NaN can actually
arise on the modelled domain (a nonpositive target entry of `kl_div` in
probability mode); in logits mode the pointwise terms
`exp(target) * (target - input)` are finite reals, so `nan_to_num` is
the identity.
-/

noncomputable def mRow (p q : List ℝ) : List ℝ := List.zipWith (fun a b => (a + b) / 2) p q

/-- Pointwise `torch.nn.functional.kl_div(m, t, log_target=True)` summed
over the class axis: the term is `exp(t_i) * (t_i - m_i)`. -/
noncomputable def klRowLog (t m : List ℝ) : ℝ :=
  (List.zipWith (fun a b => Real.exp a * (a - b)) t m).sum

/-- Pointwise `torch.nan_to_num(torch.nn.functional.kl_div(log(m), t))`
summed over the class axis: the term is `t_i * (log t_i - log m_i)`,
with the NaN produced by a nonpositive `t_i` replaced by 0. -/
noncomputable def klRowProb (t m : List ℝ) : ℝ :=
  (List.zipWith (fun a b => if a ≤ 0 then 0 else a * (Real.log a - Real.log b)) t m).sum

noncomputable def jsdRowLogits (p q : List ℝ) : ℝ :=
  Real.sqrt ((klRowLog p (mRow p q) + klRowLog q (mRow p q)) / 2)

noncomputable def jsdRowProb (p q : List ℝ) : ℝ :=
  Real.sqrt ((klRowProb p (mRow p q) + klRowProb q (mRow p q)) / 2)

/-- Embedding of `jensenShannonDivergence(p, q)` (probability mode,
`as_logits=False`): `m = (p+q)/2`, row-wise
`sqrt((KL(p, m) + KL(q, m)) / 2)`, summed over the batch rows. -/
noncomputable def jensenShannonDivergence (P Q : List (List ℝ)) : ℝ :=
  ((P.zip Q).map (fun r => jsdRowProb r.1 r.2)).sum

/-- Embedding of `jensenShannonDivergence(p, q, as_logits=True)`: the
mixture `m_tensor = (p_tensor + q_tensor) / 2` is taken directly on the
log-space inputs, and the KL terms use `kl_div(m, ., log_target=True)`. -/
noncomputable def jensenShannonDivergenceLogits (P Q : List (List ℝ)) : ℝ :=
  ((P.zip Q).map (fun r => jsdRowLogits r.1 r.2)).sum

/-- A row is a valid categorical distribution. -/
def isDist (p : List ℝ) : Prop := (∀ x ∈ p, 0 ≤ x) ∧ p.sum = 1

/-- A row is a valid log-space distribution (its exponentials sum to 1). -/
def isLogDist (p : List ℝ) : Prop := (p.map Real.exp).sum = 1

/-- Modelled from the spec: the standard Jensen-Shannon divergence (in
the same square-root form the source reports) of two probability rows,
with the mixture `m = (p+q)/2` computed in probability space and
`KL(p, m) = sum_i p_i * log(p_i / m_i)` (zero-probability entries
contributing 0). This is the reference value for the refinement claim
about the `as_logits=True` mode. -/
noncomputable def klDivergence (p m : List ℝ) : ℝ :=
  (List.zipWith (fun a b => if a = 0 then 0 else a * Real.log (a / b)) p m).sum

noncomputable def jsdSpecRow (p q : List ℝ) : ℝ :=
  Real.sqrt ((klDivergence p (mRow p q) + klDivergence q (mRow p q)) / 2)

noncomputable def jsdSpec (P Q : List (List ℝ)) : ℝ :=
  ((P.zip Q).map (fun r => jsdSpecRow r.1 r.2)).sum

/-! ### CTC blank-collapse decoding backends (w2v2fb-ctc.py)

The source tensors have shape `[B, C+1, T]` with `C+1 = 41` channels
and blank channel 40. The embedding stores a tensor time-major, as
`List (List (List Rat))` indexed batch-time-channel: the embedded
`x[b][t][c]` is the source `predicted_logits[b, c, t]`. `argmax(dim=1)`
is then the per-timestep arg-max of a column, and dropping the blank
channel `[:, :-1, :]` drops the last entry of every column.
-/

abbrev Tens3 := List (List (List ℚ))

def blankIdx : ℕ := 40

/-- Embedding of `predictions = predicted_logits.argmax(dim=1)`. -/
def ctcArgmax (x : Tens3) : List (List ℕ) :=
  x.map (fun row => row.map argmaxIdx)

/-- Embedding of `torch.argwhere(predictions == 40)`: all coordinates
`(batch, time)` with a blank arg-max, in lexicographic (row-major)
order. -/
def ctcBlankIndices (preds : List (List ℕ)) : List (ℕ × ℕ) :=
  ((List.range preds.length).map (fun b =>
    ((List.range ((preds.getD b []).length)).filter
      (fun t => decide ((preds.getD b []).getD t 0 = blankIdx))).map (fun t => (b, t)))).flatten

/-- One iteration of the `for batch, time in blank_indices` loop of
`_backend`: read `predictions[batch, time-1]` (the Python index `-1`
wraps to the last timestep when `time = 0`), overwrite
`predictions[batch, time]` with it, and overwrite
`predicted_logits[batch, previous_timestep_max, time]` with
`predicted_logits[batch, 40, time]`. -/
def ctcStep (s : List (List ℕ) × Tens3) (bt : ℕ × ℕ) : List (List ℕ) × Tens3 :=
  let preds := s.1
  let logits := s.2
  let batch := bt.1
  let time := bt.2
  let prevT := if time = 0 then (preds.getD batch []).length - 1 else time - 1
  let previous_timestep_max := (preds.getD batch []).getD prevT 0
  let preds2 := preds.set batch ((preds.getD batch []).set time previous_timestep_max)
  let col := (logits.getD batch []).getD time []
  let logits2 := logits.set batch
    ((logits.getD batch []).set time (col.set previous_timestep_max (col.getD blankIdx 0)))
  (preds2, logits2)

def ctcLoop (l : List (ℕ × ℕ)) (s : List (List ℕ) × Tens3) : List (List ℕ) × Tens3 :=
  l.foldl ctcStep s

def ctcFinal (x : Tens3) : List (List ℕ) × Tens3 :=
  ctcLoop (ctcBlankIndices (ctcArgmax x)) (ctcArgmax x, x)

/-- The decoded predictions after the mutation loop of `_backend`. -/
def ctcFinalPreds (x : Tens3) : List (List ℕ) := (ctcFinal x).1

/-- The mutated logits of `_backend` before the blank channel is dropped. -/
def ctcMutated (x : Tens3) : Tens3 := (ctcFinal x).2

/-- Embedding of `_backend`: run the mutation loop, then return
`predicted_logits[:, :-1, :]` (drop the blank channel). -/
def ctcBackend (x : Tens3) : Tens3 :=
  (ctcMutated x).map (fun row => row.map (fun col => col.dropLast))

/-- Embedding of the inner loop of `_backend_old` over one sequence
(`for timestep in sequence_logits.T`), carrying `current_prediction`:
`None` at the first timestep; a blank prediction
(`timestep_prediction == len(timestep) - 1`) overwrites
`timestep[current_prediction]` with `timestep[-1]` and keeps the
current prediction, otherwise the current prediction is updated. -/
def ctcOldRow (curr : Option ℕ) : List (List ℚ) → List (List ℚ)
  | [] => []
  | col :: rest =>
    let timestep_prediction := argmaxIdx col
    match curr with
    | none => col :: ctcOldRow (some timestep_prediction) rest
    | some c =>
      if timestep_prediction = col.length - 1 then
        (col.set c (col.getD (col.length - 1) 0)) :: ctcOldRow (some c) rest
      else
        col :: ctcOldRow (some timestep_prediction) rest

/-- Embedding of `_backend_old`: mutate each sequence, then drop the
blank channel. -/
def ctcBackendOld (x : Tens3) : Tens3 :=
  (x.map (fun row => ctcOldRow none row)).map (fun row => row.map (fun col => col.dropLast))

/-! ### Proof infrastructure: row-level characterization of `_backend`

`rowStep` / `rowLoop` are the restriction of `ctcStep` / `ctcLoop` to a
single batch row; `gRow`, `gPrev` and `mutCol` are closed forms for the
final predictions and mutated columns; `hSeed` is the running
`current_prediction` of `_backend_old`.
-/

def rowStep (s : List ℕ × List (List ℚ)) (t : ℕ) : List ℕ × List (List ℚ) :=
  let ps := s.1
  let ls := s.2
  let prevT := if t = 0 then ps.length - 1 else t - 1
  let prev := ps.getD prevT 0
  (ps.set t prev, ls.set t (((ls.getD t []).set prev ((ls.getD t []).getD blankIdx 0))))

def rowLoop (l : List ℕ) (s : List ℕ × List (List ℚ)) : List ℕ × List (List ℚ) :=
  l.foldl rowStep s

/-- Closed form of the final decoded prediction at a timestep: a blank
arg-max inherits the previous timestep's final prediction, with the
wraparound read of the last timestep's original arg-max at `t = 0`. -/
def gRow (ps : List ℕ) : ℕ → ℕ
  | 0 => if ps.getD 0 0 = blankIdx then ps.getD (ps.length - 1) 0 else ps.getD 0 0
  | t + 1 => if ps.getD (t + 1) 0 = blankIdx then gRow ps t else ps.getD (t + 1) 0

/-- The value read as `predictions[batch, time-1]` when timestep `t` is
processed (equal to the final prediction at `t-1` for `t > 0`, and to
the original last-timestep arg-max for `t = 0`). -/
def gPrev (ps : List ℕ) (t : ℕ) : ℕ :=
  if t = 0 then ps.getD (ps.length - 1) 0 else gRow ps (t - 1)

/-- Closed form of a mutated column of `_backend` before the blank
channel is dropped. -/
def mutCol (ps : List ℕ) (row : List (List ℚ)) (t : ℕ) : List ℚ :=
  if ps.getD t 0 = blankIdx then
    ((row.getD t []).set (gPrev ps t) ((row.getD t []).getD blankIdx 0))
  else row.getD t []

/-- The `current_prediction` of `_backend_old` before timestep `u`,
seeded with `c` (the first timestep's arg-max). -/
def hSeed (c : ℕ) (cols : List (List ℚ)) : ℕ → ℕ
  | 0 => c
  | u + 1 =>
    if argmaxIdx (cols.getD u []) = (cols.getD u []).length - 1 then hSeed c cols u
    else argmaxIdx (cols.getD u [])

/-! ## Counting helper lemmas -/

theorem countP_zip_snd_le {α β : Type} (q : β → Bool) :
    ∀ (l₁ : List α) (l₂ : List β),
      (l₁.zip l₂).countP (fun r => q r.2) ≤ l₂.countP q := by
  intro l₁
  induction l₁ with
  | nil => intro l₂; simp
  | cons a l₁ ih =>
    intro l₂
    cases l₂ with
    | nil => simp
    | cons b l₂ =>
      simp only [List.zip_cons_cons, List.countP_cons]
      have := ih l₂
      by_cases hb : q b = true <;> simp [hb] <;> omega

theorem countP_zip_snd_eq {α β : Type} (q : β → Bool) :
    ∀ (l₁ : List α) (l₂ : List β), l₁.length = l₂.length →
      (l₁.zip l₂).countP (fun r => q r.2) = l₂.countP q := by
  intro l₁
  induction l₁ with
  | nil =>
    intro l₂ h
    cases l₂ with
    | nil => simp
    | cons b l₂ => simp at h
  | cons a l₁ ih =>
    intro l₂ h
    cases l₂ with
    | nil => simp at h
    | cons b l₂ =>
      simp only [List.zip_cons_cons, List.countP_cons]
      rw [ih l₂ (by simpa using h)]

/-! ## Accuracy: characterization of the running state -/

theorem accTP_le_accCnt (b : Batch) : accTP b ≤ accCnt b := by
  unfold accTP accCnt
  calc ((b.preds.map (fun r => (argmaxIdx r : ℤ))).zip b.targets).countP
        (fun r => decide (r.1 = r.2 ∧ r.2 ≠ -100))
      ≤ ((b.preds.map (fun r => (argmaxIdx r : ℤ))).zip b.targets).countP
        (fun r => decide (r.2 ≠ -100)) := by
        apply List.countP_mono_left
        intro r _ hr
        simp only [decide_eq_true_eq] at hr ⊢
        exact hr.2
    _ ≤ b.targets.countP (fun t => decide (t ≠ -100)) := by
        simpa using countP_zip_snd_le (fun t => decide (t ≠ -100))
          (b.preds.map (fun r => (argmaxIdx r : ℤ))) b.targets

theorem acc_update_true_positives (s : AccState) (b : Batch) :
    (AccState.update s b).true_positives = s.true_positives + accTP b := rfl

theorem acc_update_count (s : AccState) (b : Batch) :
    (AccState.update s b).count = s.count + accCnt b := rfl

theorem acc_foldl_char (bs : List Batch) : ∀ s : AccState,
    (List.foldl AccState.update s bs).true_positives
        = s.true_positives + (bs.map accTP).sum
    ∧ (List.foldl AccState.update s bs).count = s.count + (bs.map accCnt).sum := by
  induction bs with
  | nil => intro s; simp
  | cons b bs ih =>
    intro s
    have h := ih (AccState.update s b)
    simp only [List.foldl_cons, List.map_cons, List.sum_cons]
    rw [h.1, h.2, acc_update_true_positives, acc_update_count]
    omega

theorem acc_reset_true_positives : AccState.reset.true_positives = 0 := rfl

theorem acc_reset_count : AccState.reset.count = 0 := rfl

theorem acc_foldl_isTensor (bs : List Batch) : ∀ s : AccState, bs ≠ [] →
    (List.foldl AccState.update s bs).isTensor = true := by
  induction bs with
  | nil => intro s h; exact absurd rfl h
  | cons b bs ih =>
    intro s _
    cases bs with
    | nil => rfl
    | cons b2 bs2 => exact ih (AccState.update s b) (by simp)

/-- C3 (counterexample): the claim that `report` never raises on a
zero-count denominator fails at a freshly constructed or freshly reset
`Accuracy` or `TopKAccuracy` instance, whose counters are still Python
ints: `0 / 0` on Python ints raises ZeroDivisionError. -/
theorem C3_counterexample :
    AccState.reset.report = Except.error "ZeroDivisionError"
    ∧ (TopKState.reset 3).report = Except.error "ZeroDivisionError" := by
  constructor <;> rfl

/-- C3 (amended): report on a zero denominator raises ZeroDivisionError
while the counters are Python ints — on a freshly constructed or
freshly reset `Accuracy`, and on a `TopKAccuracy` whenever its count is
zero (its counters are always Python ints). Only after at least one
update, when the `Accuracy` counters have been promoted to tensors,
is the degenerate `0 / 0` propagated as the non-finite value NaN in the
report instead of raising. -/
theorem C3_amended_report :
    (∀ bs : List Batch, bs ≠ [] →
        (List.foldl AccState.update AccState.reset bs).count = 0 →
        (List.foldl AccState.update AccState.reset bs).report = Except.ok FloatVal.nan)
    ∧ AccState.reset.report = Except.error "ZeroDivisionError"
    ∧ (∀ s : TopKState, s.count = 0 → s.report = Except.error "ZeroDivisionError") := by
  refine ⟨?_, rfl, ?_⟩
  · intro bs hbs hcount
    have hchar := acc_foldl_char bs AccState.reset
    have htens := acc_foldl_isTensor bs AccState.reset hbs
    have h1 := hchar.1
    have h2 := hchar.2
    rw [acc_reset_true_positives] at h1
    rw [acc_reset_count] at h2
    have hle : (bs.map accTP).sum ≤ (bs.map accCnt).sum :=
      List.sum_le_sum (fun b _ => accTP_le_accCnt b)
    have htp : (List.foldl AccState.update AccState.reset bs).true_positives = 0 := by
      omega
    rw [AccState.report, htens, if_pos rfl, htp, hcount]
    rfl
  · intro s hs
    rw [TopKState.report, if_pos hs]

/-- C3 (amended, witness): the empty-batch update promotes the counters
to tensors with a still-zero denominator, and report then returns NaN;
a fresh top-k accumulator raises. -/
theorem C3_amended_report_witness :
    (([⟨1, [], []⟩] : List Batch) ≠ [])
    ∧ (List.foldl AccState.update AccState.reset [⟨1, [], []⟩]).count = 0
    ∧ (List.foldl AccState.update AccState.reset [⟨1, [], []⟩]).report
        = Except.ok FloatVal.nan
    ∧ (TopKState.mk 3 0 0).report = Except.error "ZeroDivisionError" :=
  ⟨by simp, by rfl,
   C3_amended_report.1 [⟨1, [], []⟩] (by simp) (by rfl),
   C3_amended_report.2.2 ⟨3, 0, 0⟩ rfl⟩

/-- C4: over any stream of batches, the accumulated numerator is the
number of rows whose arg-max prediction equals a non-ignored target,
the accumulated denominator is the number of non-ignored targets, the
report (after at least one update) is exactly their quotient, and an
update whose targets are all `-100` changes neither counter. -/
theorem C4_accuracy_stream (bs : List Batch) :
    ((List.foldl AccState.update AccState.reset bs).true_positives = (bs.map accTP).sum
      ∧ (List.foldl AccState.update AccState.reset bs).count = (bs.map accCnt).sum)
    ∧ (bs ≠ [] →
        (List.foldl AccState.update AccState.reset bs).report
          = Except.ok (divF ((bs.map accTP).sum : ℚ) ((bs.map accCnt).sum : ℚ)))
    ∧ (∀ (s : AccState) (b : Batch), (∀ t ∈ b.targets, t = -100) →
        (AccState.update s b).true_positives = s.true_positives
        ∧ (AccState.update s b).count = s.count) := by
  have hchar := acc_foldl_char bs AccState.reset
  have h1 : (List.foldl AccState.update AccState.reset bs).true_positives
      = (bs.map accTP).sum := by
    have := hchar.1; rw [acc_reset_true_positives] at this; omega
  have h2 : (List.foldl AccState.update AccState.reset bs).count
      = (bs.map accCnt).sum := by
    have := hchar.2; rw [acc_reset_count] at this; omega
  refine ⟨⟨h1, h2⟩, ?_, ?_⟩
  · intro hbs
    rw [AccState.report, acc_foldl_isTensor bs AccState.reset hbs, if_pos rfl, h1, h2]
  · intro s b hb
    constructor
    · rw [acc_update_true_positives]
      have : accTP b = 0 := by
        apply List.countP_eq_zero.mpr
        intro r hr
        have hmem := (List.of_mem_zip hr).2
        simp only [decide_eq_true_eq, not_and, not_not]
        intro _
        exact hb r.2 hmem
      omega
    · rw [acc_update_count]
      have : accCnt b = 0 := by
        apply List.countP_eq_zero.mpr
        intro t ht
        simpa using hb t ht
      omega

/-- C4 (witness): a two-row batch with one match and one ignored row
reports 1/1. -/
theorem C4_accuracy_stream_witness :
    (([⟨2, [[1, 2], [3, 1]], [1, -100]⟩] : List Batch) ≠ [])
    ∧ (List.foldl AccState.update AccState.reset
        [⟨2, [[1, 2], [3, 1]], [1, -100]⟩]).report
        = Except.ok (FloatVal.finite 1)
    ∧ (AccState.update AccState.reset ⟨2, [[1, 2]], [-100]⟩).true_positives
        = AccState.reset.true_positives := by
  refine ⟨by simp, ?_, ?_⟩
  · have h := (C4_accuracy_stream [⟨2, [[1, 2], [3, 1]], [1, -100]⟩]).2.1 (by simp)
    rw [h]
    have ha : (List.map accTP [(⟨2, [[1, 2], [3, 1]], [1, -100]⟩ : Batch)]).sum = 1 := by rfl
    have hb : (List.map accCnt [(⟨2, [[1, 2], [3, 1]], [1, -100]⟩ : Batch)]).sum = 1 := by rfl
    rw [ha, hb]
    norm_num [divF]
  · exact ((C4_accuracy_stream []).2.2 AccState.reset ⟨2, [[1, 2]], [-100]⟩
      (by intro t ht; simpa using ht)).1

/-! ## TopKAccuracy -/

theorem topk_fold_char (l : List (List ℚ × ℤ)) : ∀ s : TopKState,
    (l.foldl topkStep s).k = s.k
    ∧ (l.foldl topkStep s).correct_in_top_k = s.correct_in_top_k +
        l.countP (fun r => (topkIndices s.k r.1).any (fun j => decide ((j : ℤ) = r.2)))
    ∧ (l.foldl topkStep s).count = s.count + l.length := by
  induction l with
  | nil => intro s; simp
  | cons r l ih =>
    intro s
    obtain ⟨hk, hc, hn⟩ := ih (topkStep s r)
    simp only [show (topkStep s r).k = s.k from rfl] at hk hc
    refine ⟨by rw [List.foldl_cons]; exact hk, ?_, ?_⟩
    · rw [List.foldl_cons, hc, List.countP_cons]
      have hcs : (topkStep s r).correct_in_top_k = s.correct_in_top_k +
          (if (topkIndices s.k r.1).any (fun j => decide ((j : ℤ) = r.2)) then 1 else 0) := rfl
      rw [hcs]
      cases hb : (topkIndices s.k r.1).any (fun j => decide ((j : ℤ) = r.2)) <;>
        simp [hb] <;> omega
    · rw [List.foldl_cons, hn]
      have : (topkStep s r).count = s.count + 1 := rfl
      rw [this, List.length_cons]
      omega

/-- C8: `TopKAccuracy.update` increments `correct_in_top_k` once per row
whose target is among the row's k highest-scoring classes and `count`
once per row unconditionally (no ignore masking); on the two seed rows
with k = 3 the state becomes `correct_in_top_k = 1`, `count = 2`. -/
theorem C8_topk_update :
    (∀ (s : TopKState) (b : Batch), b.preds.length = b.targets.length →
        (TopKState.update s b).correct_in_top_k = s.correct_in_top_k +
          (b.preds.zip b.targets).countP
            (fun r => (topkIndices s.k r.1).any (fun j => decide ((j : ℤ) = r.2)))
        ∧ (TopKState.update s b).count = s.count + b.targets.length)
    ∧ (TopKState.update (TopKState.reset 3)
        ⟨5, [[55/100, 16/100, 5/100, 10/100, 14/100],
             [20/100, 25/100, 11/100, 35/100, 9/100]], [1, 4]⟩).correct_in_top_k = 1
    ∧ (TopKState.update (TopKState.reset 3)
        ⟨5, [[55/100, 16/100, 5/100, 10/100, 14/100],
             [20/100, 25/100, 11/100, 35/100, 9/100]], [1, 4]⟩).count = 2 := by
  refine ⟨?_, ?_, ?_⟩
  · intro s b h
    have hchar := topk_fold_char (b.preds.zip b.targets) s
    refine ⟨hchar.2.1, ?_⟩
    rw [TopKState.update, hchar.2.2, List.length_zip, h]
    simp
  · norm_num [TopKState.update, TopKState.reset, topkStep, topkIndices, topkGo,
      pickTop, List.enum, List.enumFrom, List.foldl, List.filter]
  · norm_num [TopKState.update, TopKState.reset, topkStep, topkIndices, topkGo,
      pickTop, List.enum, List.enumFrom, List.foldl, List.filter]

/-- C8 (witness): a single-row batch with matching lengths. -/
theorem C8_topk_update_witness :
    ((⟨1, [[1]], [0]⟩ : Batch)).preds.length = (⟨1, [[1]], [0]⟩ : Batch).targets.length
    ∧ (TopKState.update (TopKState.reset 1) ⟨1, [[1]], [0]⟩).count
        = (TopKState.reset 1).count + (⟨1, [[1]], [0]⟩ : Batch).targets.length :=
  ⟨rfl, (C8_topk_update.1 (TopKState.reset 1) ⟨1, [[1]], [0]⟩ rfl).2⟩

/-! ## CategoricalAccuracy versus Accuracy -/

theorem oneHot_length (C : ℕ) (t : ℤ) : (oneHot C t).length = C := by
  rw [oneHot, List.length_map, List.length_range]

theorem sum_map_ite {α : Type} (l : List α) (p : α → Prop) [DecidablePred p] :
    (l.map (fun j => if p j then (1 : ℕ) else 0)).sum = l.countP (fun j => decide (p j)) := by
  induction l with
  | nil => simp
  | cons a l ih =>
    rw [List.map_cons, List.sum_cons, List.countP_cons, ih]
    by_cases h : p a <;> simp [h]
    omega

theorem oneHot_sum (C : ℕ) (t : ℤ) :
    (oneHot C t).sum = if 0 ≤ t ∧ t < (C : ℤ) then 1 else 0 := by
  induction C with
  | zero =>
    simp only [oneHot, List.range_zero, List.map_nil, List.sum_nil]
    split_ifs with h <;> omega
  | succ C ih =>
    rw [oneHot, List.range_succ, List.map_append, List.sum_append]
    have hfold : (List.map (fun j : ℕ => if t = (j : ℤ) then (1 : ℕ) else 0)
        (List.range C)).sum = if 0 ≤ t ∧ t < (C : ℤ) then 1 else 0 := ih
    rw [hfold]
    simp only [List.map_cons, List.map_nil, List.sum_cons, List.sum_nil]
    split_ifs <;> omega

theorem vecMul_oneHot_sum (C : ℕ) (p : ℕ) (t : ℤ) :
    (vecMul (oneHot C (p : ℤ)) (oneHot C t)).sum
      = if ((p : ℤ) = t ∧ p < C) then 1 else 0 := by
  rw [vecMul, oneHot, oneHot, List.zipWith_map, List.zipWith_same]
  have hpt : ∀ j : ℕ,
      ((if (p : ℤ) = (j : ℤ) then (1:ℕ) else 0) * (if t = (j : ℤ) then (1:ℕ) else 0))
        = if ((p : ℤ) = t ∧ p = j) then 1 else 0 := by
    intro j
    by_cases h1 : (p : ℤ) = (j : ℤ) <;> by_cases h2 : t = (j : ℤ) <;> split_ifs <;>
      simp_all <;> omega
  rw [List.map_congr_left (fun j _ => hpt j)]
  rw [sum_map_ite (List.range C) (fun j => (p : ℤ) = t ∧ p = j)]
  induction C with
  | zero => simp
  | succ C ih =>
    rw [List.range_succ, List.countP_append]
    rw [ih]
    by_cases h1 : (p : ℤ) = t <;> by_cases h2 : p = C <;> split_ifs <;>
      simp_all [List.countP_cons] <;> omega

theorem vecAdd_sum (u : List ℕ) : ∀ v : List ℕ, u.length = v.length →
    (vecAdd u v).sum = u.sum + v.sum := by
  induction u with
  | nil =>
    intro v h
    cases v with
    | nil => simp [vecAdd]
    | cons b v => simp at h
  | cons a u ih =>
    intro v h
    cases v with
    | nil => simp at h
    | cons b v =>
      rw [vecAdd, List.zipWith_cons_cons]
      rw [show List.zipWith (· + ·) u v = vecAdd u v from rfl]
      rw [List.sum_cons, List.sum_cons, List.sum_cons, ih v (by simpa using h)]
      omega

theorem vecAdd_length (u v : List ℕ) (h : u.length = v.length) :
    (vecAdd u v).length = u.length := by
  rw [vecAdd, List.length_zipWith, h]
  omega

theorem foldl_vecAdd_char (L : List (List ℕ)) : ∀ acc : List ℕ,
    (∀ v ∈ L, v.length = acc.length) →
    (L.foldl vecAdd acc).sum = acc.sum + (L.map List.sum).sum
    ∧ (L.foldl vecAdd acc).length = acc.length := by
  induction L with
  | nil => intro acc _; simp
  | cons v L ih =>
    intro acc h
    have hv : v.length = acc.length := h v (by simp)
    have hlen : (vecAdd acc v).length = acc.length := vecAdd_length acc v hv.symm
    have hrec := ih (vecAdd acc v) (by
      intro w hw
      rw [hlen]
      exact h w (by simp [hw]))
    rw [List.foldl_cons, List.map_cons, List.sum_cons]
    refine ⟨?_, by rw [hrec.2, hlen]⟩
    rw [hrec.1, vecAdd_sum acc v hv.symm]
    omega

theorem marginalTotals_as_map (b : Batch) :
    List.zipWith vecMul
      ((keptRows b).map (fun r => oneHot b.numClasses ((argmaxIdx r.1 : ℤ))))
      ((keptRows b).map (fun r => oneHot b.numClasses r.2))
    = (keptRows b).map
      (fun r => vecMul (oneHot b.numClasses ((argmaxIdx r.1 : ℤ))) (oneHot b.numClasses r.2)) := by
  rw [List.zipWith_map, List.zipWith_same]

theorem marginalTotals_length (b : Batch) : (marginalTotals b).length = b.numClasses := by
  rw [marginalTotals, marginalTotals_as_map]
  have h := foldl_vecAdd_char
    ((keptRows b).map
      (fun r => vecMul (oneHot b.numClasses ((argmaxIdx r.1 : ℤ))) (oneHot b.numClasses r.2)))
    (List.replicate b.numClasses 0) ?_
  · rw [h.2, List.length_replicate]
  · intro v hv
    obtain ⟨r, _, rfl⟩ := List.mem_map.mp hv
    rw [vecMul, List.length_zipWith, oneHot_length, oneHot_length, List.length_replicate]
    omega

theorem marginalCounts_length (b : Batch) : (marginalCounts b).length = b.numClasses := by
  rw [marginalCounts]
  have h := foldl_vecAdd_char ((keptRows b).map (fun r => oneHot b.numClasses r.2))
    (List.replicate b.numClasses 0) ?_
  · rw [h.2, List.length_replicate]
  · intro v hv
    obtain ⟨r, _, rfl⟩ := List.mem_map.mp hv
    rw [oneHot_length, List.length_replicate]

theorem marginalTotals_sum (b : Batch)
    (hv : ∀ t ∈ b.targets, t = -100 ∨ (0 ≤ t ∧ t < (b.numClasses : ℤ))) :
    (marginalTotals b).sum = accTP b := by
  rw [marginalTotals, marginalTotals_as_map]
  have h := foldl_vecAdd_char
    ((keptRows b).map
      (fun r => vecMul (oneHot b.numClasses ((argmaxIdx r.1 : ℤ))) (oneHot b.numClasses r.2)))
    (List.replicate b.numClasses 0) ?_
  swap
  · intro v hvv
    obtain ⟨r, _, rfl⟩ := List.mem_map.mp hvv
    rw [vecMul, List.length_zipWith, oneHot_length, oneHot_length, List.length_replicate]
    omega
  rw [h.1, List.map_map]
  have hsum0 : (List.replicate b.numClasses (0 : ℕ)).sum = 0 := by simp
  rw [hsum0, Nat.zero_add]
  have hpt : ∀ r ∈ keptRows b,
      (List.sum ∘ fun r =>
        vecMul (oneHot b.numClasses ((argmaxIdx r.1 : ℤ))) (oneHot b.numClasses r.2)) r
      = (fun r : List ℚ × ℤ =>
          if ((argmaxIdx r.1 : ℤ) = r.2 ∧ argmaxIdx r.1 < b.numClasses) then (1 : ℕ) else 0) r := by
    intro r _
    exact vecMul_oneHot_sum b.numClasses (argmaxIdx r.1) r.2
  rw [List.map_congr_left hpt]
  rw [sum_map_ite (keptRows b)
    (fun r : List ℚ × ℤ => (argmaxIdx r.1 : ℤ) = r.2 ∧ argmaxIdx r.1 < b.numClasses)]
  rw [keptRows, List.countP_filter]
  rw [accTP, List.zip_map_left, List.countP_map]
  apply List.countP_congr
  intro r hr
  have hmem := (List.of_mem_zip (by exact hr)).2
  constructor
  · intro hx
    simp only [Bool.and_eq_true, decide_eq_true_eq] at hx
    simp only [Function.comp_apply, Prod.map, decide_eq_true_eq]
    exact ⟨hx.1.1, hx.2⟩
  · intro hx
    simp only [Function.comp_apply, Prod.map, decide_eq_true_eq] at hx
    simp only [Bool.and_eq_true, decide_eq_true_eq]
    rcases hv r.2 hmem with h100 | hbound
    · exact absurd h100 hx.2
    · refine ⟨⟨hx.1, ?_⟩, hx.2⟩
      have : ((argmaxIdx r.1 : ℤ)) < (b.numClasses : ℤ) := by rw [hx.1]; exact hbound.2
      exact_mod_cast this

theorem marginalCounts_sum (b : Batch)
    (hlen : b.preds.length = b.targets.length)
    (hv : ∀ t ∈ b.targets, t = -100 ∨ (0 ≤ t ∧ t < (b.numClasses : ℤ))) :
    (marginalCounts b).sum = accCnt b := by
  rw [marginalCounts]
  have h := foldl_vecAdd_char ((keptRows b).map (fun r => oneHot b.numClasses r.2))
    (List.replicate b.numClasses 0) ?_
  swap
  · intro v hvv
    obtain ⟨r, _, rfl⟩ := List.mem_map.mp hvv
    rw [oneHot_length, List.length_replicate]
  rw [h.1, List.map_map]
  have hsum0 : (List.replicate b.numClasses (0 : ℕ)).sum = 0 := by simp
  rw [hsum0, Nat.zero_add]
  have hpt : ∀ r ∈ keptRows b,
      (List.sum ∘ fun r : List ℚ × ℤ => oneHot b.numClasses r.2) r
      = (fun r : List ℚ × ℤ => if (0 ≤ r.2 ∧ r.2 < (b.numClasses : ℤ)) then (1 : ℕ) else 0) r := by
    intro r _
    exact oneHot_sum b.numClasses r.2
  rw [List.map_congr_left hpt]
  rw [sum_map_ite (keptRows b) (fun r : List ℚ × ℤ => 0 ≤ r.2 ∧ r.2 < (b.numClasses : ℤ))]
  have hall : (keptRows b).countP
      (fun r : List ℚ × ℤ => decide (0 ≤ r.2 ∧ r.2 < (b.numClasses : ℤ)))
      = (keptRows b).length := by
    apply List.countP_eq_length.mpr
    intro r hr
    rw [keptRows, List.mem_filter] at hr
    have hmem := (List.of_mem_zip hr.1).2
    rcases hv r.2 hmem with h100 | hbound
    · have : ¬(r.2 ≠ -100) := by simp [h100]
      simp only [decide_eq_true_eq] at hr
      exact absurd hr.2 this
    · simp only [decide_eq_true_eq]
      exact hbound
  rw [hall, keptRows, ← List.countP_eq_length_filter, accCnt]
  exact countP_zip_snd_eq (fun t => decide (t ≠ -100)) b.preds b.targets hlen

theorem cat_update_inv (s : CatState) (a : AccState) (C : ℕ) (b : Batch)
    (hC : b.numClasses = C)
    (hlen : b.preds.length = b.targets.length)
    (hv : ∀ t ∈ b.targets, t = -100 ∨ (0 ≤ t ∧ t < (C : ℤ)))
    (hinv : CatInv s a C) :
    CatInv (CatState.update s b) (AccState.update a b) C := by
  obtain ⟨ht, hc, hlt, hlc⟩ := hinv
  have hv2 : ∀ t ∈ b.targets, t = -100 ∨ (0 ≤ t ∧ t < (b.numClasses : ℤ)) := by
    rw [hC]; exact hv
  have hts := marginalTotals_sum b hv2
  have hcs := marginalCounts_sum b hlen hv2
  have htl := marginalTotals_length b
  have hcl := marginalCounts_length b
  refine ⟨?_, ?_, ?_, ?_⟩
  · rw [CatState.update, acc_update_true_positives]
    cases hopt : s.totals with
    | none =>
      rw [hopt] at ht
      simp only [sumOpt] at ht ⊢
      omega
    | some v =>
      rw [hopt] at ht hlt
      have hvl : v.length = C := hlt v rfl
      simp only [sumOpt] at ht ⊢
      rw [vecAdd_sum v (marginalTotals b) (by rw [hvl, htl, hC])]
      omega
  · rw [CatState.update, acc_update_count]
    cases hopt : s.counts with
    | none =>
      rw [hopt] at hc
      simp only [sumOpt] at hc ⊢
      omega
    | some v =>
      rw [hopt] at hc hlc
      have hvl : v.length = C := hlc v rfl
      simp only [sumOpt] at hc ⊢
      rw [vecAdd_sum v (marginalCounts b) (by rw [hvl, hcl, hC])]
      omega
  · intro v hveq
    rw [CatState.update] at hveq
    cases hopt : s.totals with
    | none =>
      rw [hopt] at hveq
      simp only [Option.some.injEq] at hveq
      rw [← hveq, htl, hC]
    | some w =>
      rw [hopt] at hveq
      simp only [Option.some.injEq] at hveq
      have hwl : w.length = C := hlt w (by rw [hopt])
      rw [← hveq, vecAdd_length w (marginalTotals b) (by rw [hwl, htl, hC]), hwl]
  · intro v hveq
    rw [CatState.update] at hveq
    cases hopt : s.counts with
    | none =>
      rw [hopt] at hveq
      simp only [Option.some.injEq] at hveq
      rw [← hveq, hcl, hC]
    | some w =>
      rw [hopt] at hveq
      simp only [Option.some.injEq] at hveq
      have hwl : w.length = C := hlc w (by rw [hopt])
      rw [← hveq, vecAdd_length w (marginalCounts b) (by rw [hwl, hcl, hC]), hwl]

theorem cat_acc_foldl (C : ℕ) (bs : List Batch) : ∀ (s : CatState) (a : AccState),
    (∀ b ∈ bs, b.numClasses = C ∧ b.preds.length = b.targets.length
      ∧ (∀ t ∈ b.targets, t = -100 ∨ (0 ≤ t ∧ t < (C : ℤ)))) →
    CatInv s a C →
    CatInv (List.foldl CatState.update s bs) (List.foldl AccState.update a bs) C := by
  induction bs with
  | nil => intro s a _ hinv; exact hinv
  | cons b bs ih =>
    intro s a h hinv
    obtain ⟨hC, hlen, hv⟩ := h b (by simp)
    exact ih (CatState.update s b) (AccState.update a b)
      (fun b2 hb2 => h b2 (by simp [hb2]))
      (cat_update_inv s a C b hC hlen hv hinv)

/-- C5: feeding the same batch stream to `CategoricalAccuracy` and to
`Accuracy`, the per-class true-positive vector sums to the scalar
`true_positives` counter and the per-class occurrence vector sums to
the scalar `count` counter. -/
theorem C5_categorical_vs_scalar (C : ℕ) (bs : List Batch)
    (h : ∀ b ∈ bs, b.numClasses = C ∧ b.preds.length = b.targets.length
      ∧ (∀ t ∈ b.targets, t = -100 ∨ (0 ≤ t ∧ t < (C : ℤ)))) :
    sumOpt (List.foldl CatState.update CatState.reset bs).totals
      = (List.foldl AccState.update AccState.reset bs).true_positives
    ∧ sumOpt (List.foldl CatState.update CatState.reset bs).counts
      = (List.foldl AccState.update AccState.reset bs).count := by
  have hinv0 : CatInv CatState.reset AccState.reset C := by
    refine ⟨rfl, rfl, ?_, ?_⟩ <;> intro v hv <;> exact absurd hv (by simp [CatState.reset])
  have h2 := cat_acc_foldl C bs CatState.reset AccState.reset h hinv0
  exact ⟨h2.1, h2.2.1⟩

/-- C5 (witness): a concrete two-batch stream over 2 classes. -/
theorem C5_categorical_vs_scalar_witness :
    sumOpt (List.foldl CatState.update CatState.reset
        [⟨2, [[1, 2], [3, 1]], [1, 0]⟩, ⟨2, [[1, 2]], [-100]⟩]).totals
      = (List.foldl AccState.update AccState.reset
        [⟨2, [[1, 2], [3, 1]], [1, 0]⟩, ⟨2, [[1, 2]], [-100]⟩]).true_positives
    ∧ sumOpt (List.foldl CatState.update CatState.reset
        [⟨2, [[1, 2], [3, 1]], [1, 0]⟩, ⟨2, [[1, 2]], [-100]⟩]).counts
      = (List.foldl AccState.update AccState.reset
        [⟨2, [[1, 2], [3, 1]], [1, 0]⟩, ⟨2, [[1, 2]], [-100]⟩]).count :=
  C5_categorical_vs_scalar 2 [⟨2, [[1, 2], [3, 1]], [1, 0]⟩, ⟨2, [[1, 2]], [-100]⟩]
    (by
      intro b hb
      simp only [List.mem_cons, List.not_mem_nil, or_false] at hb
      rcases hb with rfl | rfl
      · refine ⟨rfl, rfl, ?_⟩
        intro t ht
        simp only [List.mem_cons, List.not_mem_nil, or_false] at ht
        rcases ht with rfl | rfl <;> omega
      · refine ⟨rfl, rfl, ?_⟩
        intro t ht
        simp only [List.mem_cons, List.not_mem_nil, or_false] at ht
        rcases ht with rfl <;> omega)

/-! ## Jensen-Shannon divergence: symmetry, nonnegativity, additivity -/

theorem mRow_comm (p q : List ℝ) : mRow p q = mRow q p :=
  List.zipWith_comm_of_comm _ (by intro a b; ring) p q

theorem jsdRowProb_comm (p q : List ℝ) : jsdRowProb p q = jsdRowProb q p := by
  rw [jsdRowProb, jsdRowProb, mRow_comm q p, add_comm]

theorem jsdRowLogits_comm (p q : List ℝ) : jsdRowLogits p q = jsdRowLogits q p := by
  rw [jsdRowLogits, jsdRowLogits, mRow_comm q p, add_comm]

theorem jsd_comm (P Q : List (List ℝ)) :
    jensenShannonDivergence P Q = jensenShannonDivergence Q P := by
  rw [jensenShannonDivergence, jensenShannonDivergence, ← List.zip_swap P Q, List.map_map]
  exact congrArg List.sum (List.map_congr_left
    (fun r _ => jsdRowProb_comm r.1 r.2))

theorem jsdLogits_comm (P Q : List (List ℝ)) :
    jensenShannonDivergenceLogits P Q = jensenShannonDivergenceLogits Q P := by
  rw [jensenShannonDivergenceLogits, jensenShannonDivergenceLogits, ← List.zip_swap P Q,
    List.map_map]
  exact congrArg List.sum (List.map_congr_left
    (fun r _ => jsdRowLogits_comm r.1 r.2))

theorem jsd_nonneg (P Q : List (List ℝ)) : 0 ≤ jensenShannonDivergence P Q := by
  apply List.sum_nonneg
  intro x hx
  obtain ⟨r, _, rfl⟩ := List.mem_map.mp hx
  exact Real.sqrt_nonneg _

theorem jsdLogits_nonneg (P Q : List (List ℝ)) : 0 ≤ jensenShannonDivergenceLogits P Q := by
  apply List.sum_nonneg
  intro x hx
  obtain ⟨r, _, rfl⟩ := List.mem_map.mp hx
  exact Real.sqrt_nonneg _

/-- C6: `jensenShannonDivergence` is symmetric in its two arguments and
nonnegative, in probability mode and in `as_logits` mode, for valid
distribution batches. -/
theorem C6_jsd_symmetric_nonneg
    (P Q : List (List ℝ)) (hP : ∀ r ∈ P, isDist r) (hQ : ∀ r ∈ Q, isDist r)
    (Pl Ql : List (List ℝ)) (hPl : ∀ r ∈ Pl, isLogDist r) (hQl : ∀ r ∈ Ql, isLogDist r) :
    (jensenShannonDivergence P Q = jensenShannonDivergence Q P
      ∧ 0 ≤ jensenShannonDivergence P Q)
    ∧ (jensenShannonDivergenceLogits Pl Ql = jensenShannonDivergenceLogits Ql Pl
      ∧ 0 ≤ jensenShannonDivergenceLogits Pl Ql) :=
  ⟨⟨jsd_comm P Q, jsd_nonneg P Q⟩, ⟨jsdLogits_comm Pl Ql, jsdLogits_nonneg Pl Ql⟩⟩

/-- C6 (witness): concrete distribution rows in both modes. -/
theorem C6_jsd_symmetric_nonneg_witness :
    (∀ r ∈ [[(1:ℝ)/2, 1/2]], isDist r) ∧ (∀ r ∈ [[(1:ℝ)/4, 3/4]], isDist r)
    ∧ (∀ r ∈ [[Real.log ((1:ℝ)/2), Real.log ((1:ℝ)/2)]], isLogDist r)
    ∧ jensenShannonDivergence [[(1:ℝ)/2, 1/2]] [[(1:ℝ)/4, 3/4]]
        = jensenShannonDivergence [[(1:ℝ)/4, 3/4]] [[(1:ℝ)/2, 1/2]]
    ∧ 0 ≤ jensenShannonDivergenceLogits [[Real.log ((1:ℝ)/2), Real.log ((1:ℝ)/2)]]
        [[Real.log ((1:ℝ)/2), Real.log ((1:ℝ)/2)]] := by
  have hP : ∀ r ∈ [[(1:ℝ)/2, 1/2]], isDist r := by
    intro r hr
    simp only [List.mem_cons, List.not_mem_nil, or_false] at hr
    subst hr
    constructor
    · intro x hx
      simp only [List.mem_cons, List.not_mem_nil, or_false] at hx
      rcases hx with rfl | rfl <;> norm_num
    · norm_num
  have hQ : ∀ r ∈ [[(1:ℝ)/4, 3/4]], isDist r := by
    intro r hr
    simp only [List.mem_cons, List.not_mem_nil, or_false] at hr
    subst hr
    constructor
    · intro x hx
      simp only [List.mem_cons, List.not_mem_nil, or_false] at hx
      rcases hx with rfl | rfl <;> norm_num
    · norm_num
  have hL : ∀ r ∈ [[Real.log ((1:ℝ)/2), Real.log ((1:ℝ)/2)]], isLogDist r := by
    intro r hr
    simp only [List.mem_cons, List.not_mem_nil, or_false] at hr
    subst hr
    rw [isLogDist]
    simp only [List.map_cons, List.map_nil, List.sum_cons, List.sum_nil]
    rw [Real.exp_log (by norm_num)]
    norm_num
  have h := C6_jsd_symmetric_nonneg [[(1:ℝ)/2, 1/2]] [[(1:ℝ)/4, 3/4]] hP hQ
    [[Real.log ((1:ℝ)/2), Real.log ((1:ℝ)/2)]] [[Real.log ((1:ℝ)/2), Real.log ((1:ℝ)/2)]] hL hL
  exact ⟨hP, hQ, hL, h.1.1, h.2.2⟩

/-- C7: the divergence of the concatenation of two batches is the sum of
the per-batch divergences (the function returns the sum, not the mean,
of the per-row divergences). -/
theorem C7_jsd_batch_additive (P₁ Q₁ P₂ Q₂ : List (List ℝ))
    (hP₁ : ∀ r ∈ P₁, isDist r) (hQ₁ : ∀ r ∈ Q₁, isDist r)
    (hP₂ : ∀ r ∈ P₂, isDist r) (hQ₂ : ∀ r ∈ Q₂, isDist r)
    (hlen : P₁.length = Q₁.length) :
    jensenShannonDivergence (P₁ ++ P₂) (Q₁ ++ Q₂)
      = jensenShannonDivergence P₁ Q₁ + jensenShannonDivergence P₂ Q₂ := by
  rw [jensenShannonDivergence, List.zip_append hlen, List.map_append, List.sum_append]
  rfl

/-- C7 (witness): the spec's seed example, duplicated into a two-row
batch. -/
theorem C7_jsd_batch_additive_witness :
    (∀ r ∈ [[(30:ℝ)/100, 50/100, 20/100]], isDist r)
    ∧ (∀ r ∈ [[(36:ℝ)/100, 48/100, 16/100]], isDist r)
    ∧ ([[(30:ℝ)/100, 50/100, 20/100]].length = [[(36:ℝ)/100, 48/100, 16/100]].length)
    ∧ jensenShannonDivergence
        ([[(30:ℝ)/100, 50/100, 20/100]] ++ [[(30:ℝ)/100, 50/100, 20/100]])
        ([[(36:ℝ)/100, 48/100, 16/100]] ++ [[(36:ℝ)/100, 48/100, 16/100]])
      = jensenShannonDivergence [[(30:ℝ)/100, 50/100, 20/100]] [[(36:ℝ)/100, 48/100, 16/100]]
        + jensenShannonDivergence [[(30:ℝ)/100, 50/100, 20/100]]
          [[(36:ℝ)/100, 48/100, 16/100]] := by
  have hP : ∀ r ∈ [[(30:ℝ)/100, 50/100, 20/100]], isDist r := by
    intro r hr
    simp only [List.mem_cons, List.not_mem_nil, or_false] at hr
    subst hr
    constructor
    · intro x hx
      simp only [List.mem_cons, List.not_mem_nil, or_false] at hx
      rcases hx with rfl | rfl | rfl <;> norm_num
    · norm_num
  have hQ : ∀ r ∈ [[(36:ℝ)/100, 48/100, 16/100]], isDist r := by
    intro r hr
    simp only [List.mem_cons, List.not_mem_nil, or_false] at hr
    subst hr
    constructor
    · intro x hx
      simp only [List.mem_cons, List.not_mem_nil, or_false] at hx
      rcases hx with rfl | rfl | rfl <;> norm_num
    · norm_num
  exact ⟨hP, hQ, rfl,
    C7_jsd_batch_additive _ _ _ _ hP hQ hP hQ rfl⟩

/-! ## The `as_logits` mixture (claim C1) -/

theorem klRowLog_pair (p : List ℝ) : ∀ q : List ℝ,
    klRowLog p (mRow p q) + klRowLog q (mRow p q)
      = (List.zipWith (fun a b => (a - b) * (Real.exp a - Real.exp b)) p q).sum / 2 := by
  induction p with
  | nil => intro q; simp [klRowLog, mRow]
  | cons a p ih =>
    intro q
    cases q with
    | nil => simp [klRowLog, mRow]
    | cons b q =>
      have hih := ih q
      simp only [mRow, List.zipWith_cons_cons, List.sum_cons] at hih ⊢
      simp only [klRowLog, List.zipWith_cons_cons, List.sum_cons] at hih ⊢
      have hhead : Real.exp a * (a - (a + b) / 2) + Real.exp b * (b - (a + b) / 2)
          = (a - b) * (Real.exp a - Real.exp b) / 2 := by ring
      linarith [hih, hhead]

/-- C1 (amended): in `as_logits` mode the mixture is the arithmetic mean
of the log-space inputs themselves (the code averages the logits, not
the probabilities), and the returned value is the sum over rows of
`sqrt(sum_i (p_i - q_i) * (exp p_i - exp q_i) / 4)`. -/
theorem C1_amended_logspace_mixture (P Q : List (List ℝ)) :
    jensenShannonDivergenceLogits P Q
      = ((P.zip Q).map (fun r =>
          Real.sqrt
            ((List.zipWith (fun a b => (a - b) * (Real.exp a - Real.exp b)) r.1 r.2).sum
              / 4))).sum := by
  rw [jensenShannonDivergenceLogits]
  apply congrArg List.sum
  apply List.map_congr_left
  intro r _
  rw [jsdRowLogits, klRowLog_pair r.1 r.2]
  congr 1
  ring

/-- C1 (counterexample): for the log-space inputs encoding the
distributions (9/10, 1/10) and (1/10, 9/10), the value returned in
`as_logits` mode differs from the Jensen-Shannon divergence of those
two distributions: the code's log-space mixture inflates the value
above the sqrt(log 2) bound of the true divergence. -/
theorem C1_counterexample :
    Real.exp (Real.log ((9:ℝ)/10)) = 9/10
    ∧ Real.exp (Real.log ((1:ℝ)/10)) = 1/10
    ∧ jensenShannonDivergenceLogits
        [[Real.log ((9:ℝ)/10), Real.log ((1:ℝ)/10)]]
        [[Real.log ((1:ℝ)/10), Real.log ((9:ℝ)/10)]]
      ≠ jsdSpec [[(9:ℝ)/10, 1/10]] [[(1:ℝ)/10, 9/10]] := by
  have hexp9 : Real.exp (Real.log ((9:ℝ)/10)) = 9/10 := Real.exp_log (by norm_num)
  have hexp1 : Real.exp (Real.log ((1:ℝ)/10)) = 1/10 := Real.exp_log (by norm_num)
  refine ⟨hexp9, hexp1, ?_⟩
  have hdiff : Real.log ((9:ℝ)/10) - Real.log ((1:ℝ)/10) = Real.log 9 := by
    rw [← Real.log_div (by norm_num) (by norm_num)]
    norm_num
  have hL : jensenShannonDivergenceLogits
      [[Real.log ((9:ℝ)/10), Real.log ((1:ℝ)/10)]]
      [[Real.log ((1:ℝ)/10), Real.log ((9:ℝ)/10)]]
      = Real.sqrt ((2/5) * Real.log 9) := by
    rw [jensenShannonDivergenceLogits]
    simp only [List.zip_cons_cons, List.zip_nil_right, List.map_cons, List.map_nil,
      List.sum_cons, List.sum_nil, add_zero]
    rw [jsdRowLogits, klRowLog_pair]
    simp only [List.zipWith_cons_cons, List.zipWith_nil_left, List.sum_cons, List.sum_nil,
      add_zero]
    rw [hexp9, hexp1]
    congr 1
    linear_combination (2/5 : ℝ) * hdiff
  have hm : mRow [(9:ℝ)/10, 1/10] [(1:ℝ)/10, 9/10] = [1/2, 1/2] := by
    rw [mRow]
    norm_num
  have hk1 : klDivergence [(9:ℝ)/10, 1/10] [(1:ℝ)/2, 1/2]
      = (9/10) * Real.log ((9:ℝ)/5) + (1/10) * Real.log ((1:ℝ)/5) := by
    rw [klDivergence]
    simp only [List.zipWith_cons_cons, List.zipWith_nil_left, List.sum_cons, List.sum_nil,
      add_zero]
    rw [if_neg (by norm_num), if_neg (by norm_num)]
    rw [show ((9:ℝ)/10) / ((1:ℝ)/2) = 9/5 by norm_num,
      show ((1:ℝ)/10) / ((1:ℝ)/2) = 1/5 by norm_num]
  have hk2 : klDivergence [(1:ℝ)/10, 9/10] [(1:ℝ)/2, 1/2]
      = (1/10) * Real.log ((1:ℝ)/5) + (9/10) * Real.log ((9:ℝ)/5) := by
    rw [klDivergence]
    simp only [List.zipWith_cons_cons, List.zipWith_nil_left, List.sum_cons, List.sum_nil,
      add_zero]
    rw [if_neg (by norm_num), if_neg (by norm_num)]
    rw [show ((9:ℝ)/10) / ((1:ℝ)/2) = 9/5 by norm_num,
      show ((1:ℝ)/10) / ((1:ℝ)/2) = 1/5 by norm_num]
  have hR : jsdSpec [[(9:ℝ)/10, 1/10]] [[(1:ℝ)/10, 9/10]]
      = Real.sqrt ((9/10) * Real.log ((9:ℝ)/5) + (1/10) * Real.log ((1:ℝ)/5)) := by
    rw [jsdSpec]
    simp only [List.zip_cons_cons, List.zip_nil_right, List.map_cons, List.map_nil,
      List.sum_cons, List.sum_nil, add_zero]
    rw [jsdSpecRow, hm, hk1, hk2]
    congr 1
    ring
  have hlog95 : Real.log ((9:ℝ)/5) ≤ Real.log 2 := Real.log_le_log (by norm_num) (by norm_num)
  have hlog15 : Real.log ((1:ℝ)/5) ≤ 0 := Real.log_nonpos (by norm_num) (by norm_num)
  have hlog2pos : 0 < Real.log 2 := Real.log_pos (by norm_num)
  have hKLle : (9/10) * Real.log ((9:ℝ)/5) + (1/10) * Real.log ((1:ℝ)/5) ≤ Real.log 2 := by
    nlinarith [hlog95, hlog15, hlog2pos]
  have h32 : Real.log (32:ℝ) < Real.log 81 := Real.log_lt_log (by norm_num) (by norm_num)
  have h32e : Real.log (32:ℝ) = 5 * Real.log 2 := by
    rw [show (32:ℝ) = 2 ^ (5:ℕ) by norm_num, Real.log_pow]
    norm_num
  have h81e : Real.log (81:ℝ) = 2 * Real.log 9 := by
    rw [show (81:ℝ) = 9 ^ (2:ℕ) by norm_num, Real.log_pow]
    norm_num
  have hlt : Real.log 2 < (2/5) * Real.log 9 := by
    rw [h32e, h81e] at h32
    linarith
  have hlog9pos : 0 < Real.log 9 := Real.log_pos (by norm_num)
  rw [hL, hR]
  apply ne_of_gt
  rcases le_or_lt 0 ((9/10) * Real.log ((9:ℝ)/5) + (1/10) * Real.log ((1:ℝ)/5)) with hKL0 | hKL0
  · exact Real.sqrt_lt_sqrt hKL0 (lt_of_le_of_lt hKLle hlt)
  · rw [Real.sqrt_eq_zero'.mpr (le_of_lt hKL0)]
    exact Real.sqrt_pos.mpr (by nlinarith [hlog9pos])

/-! ## CTC backend: factoring the global loop into per-row loops -/

theorem getD_set_full {α : Type} (l : List α) (i : ℕ) (a d : α) :
    (l.set i a).getD i d = if i < l.length then a else d := by
  split_ifs with h
  · exact getD_set_self l i a d h
  · rw [List.set_eq_of_length_le (by omega), getD_of_le l d i (by omega)]

theorem getD_map_row (x : Tens3) (b : ℕ) :
    (ctcArgmax x).getD b [] = (x.getD b []).map argmaxIdx := by
  rcases Nat.lt_or_ge b x.length with h | h
  · rw [ctcArgmax, getD_map_of_lt _ x b [] [] h]
  · rw [ctcArgmax, getD_of_le _ _ _ (by simpa using h), getD_of_le _ _ _ h]
    rfl

theorem ctcStep_row_eq (P : List (List ℕ)) (L : Tens3) (b ti : ℕ) :
    ((ctcStep (P, L) (b, ti)).1.getD b [], (ctcStep (P, L) (b, ti)).2.getD b [])
      = rowStep (P.getD b [], L.getD b []) ti := by
  rw [rowStep, ctcStep]
  simp only [Prod.mk.injEq]
  constructor
  · rcases Nat.lt_or_ge b P.length with h | h
    · rw [getD_set_full, if_pos h]
    · rw [getD_set_full, if_neg (by omega), getD_of_le P [] b h]
      simp
  · rcases Nat.lt_or_ge b L.length with h | h
    · rw [getD_set_full, if_pos h]
    · rw [getD_set_full, if_neg (by omega), getD_of_le L [] b h]
      simp

theorem ctcStep_row_ne (P : List (List ℕ)) (L : Tens3) (bi ti b : ℕ) (h : bi ≠ b) :
    (ctcStep (P, L) (bi, ti)).1.getD b [] = P.getD b []
    ∧ (ctcStep (P, L) (bi, ti)).2.getD b [] = L.getD b [] := by
  rw [ctcStep]
  exact ⟨getD_set_ne P bi b _ [] h, getD_set_ne L bi b _ [] h⟩

theorem ctcLoop_row (l : List (ℕ × ℕ)) : ∀ (P : List (List ℕ)) (L : Tens3) (b : ℕ),
    ((ctcLoop l (P, L)).1.getD b [], (ctcLoop l (P, L)).2.getD b [])
      = rowLoop (l.filterMap (fun bt => if bt.1 = b then some bt.2 else none))
          (P.getD b [], L.getD b []) := by
  induction l with
  | nil => intro P L b; rfl
  | cons bt rest ih =>
    intro P L b
    rcases bt with ⟨bi, ti⟩
    by_cases hbi : bi = b
    · subst hbi
      have hfm : ((bi, ti) :: rest).filterMap
          (fun bt => if bt.1 = bi then some bt.2 else none)
          = ti :: rest.filterMap (fun bt => if bt.1 = bi then some bt.2 else none) := by
        rw [List.filterMap_cons]
        simp
      rw [hfm]
      rw [show ctcLoop ((bi, ti) :: rest) (P, L)
            = ctcLoop rest (ctcStep (P, L) (bi, ti)) from rfl]
      rw [show rowLoop (ti :: List.filterMap (fun bt => if bt.1 = bi then some bt.2 else none) rest)
            (P.getD bi [], L.getD bi [])
          = rowLoop (List.filterMap (fun bt => if bt.1 = bi then some bt.2 else none) rest)
            (rowStep (P.getD bi [], L.getD bi []) ti) from rfl]
      rw [← ctcStep_row_eq P L bi ti]
      exact ih (ctcStep (P, L) (bi, ti)).1 (ctcStep (P, L) (bi, ti)).2 bi
    · have hfm : ((bi, ti) :: rest).filterMap
          (fun bt => if bt.1 = b then some bt.2 else none)
          = rest.filterMap (fun bt => if bt.1 = b then some bt.2 else none) := by
        rw [List.filterMap_cons]
        simp [hbi]
      rw [hfm]
      rw [show ctcLoop ((bi, ti) :: rest) (P, L)
            = ctcLoop rest (ctcStep (P, L) (bi, ti)) from rfl]
      have hrows := ctcStep_row_ne P L bi ti b hbi
      rw [← hrows.1, ← hrows.2]
      exact ih (ctcStep (P, L) (bi, ti)).1 (ctcStep (P, L) (bi, ti)).2 b

theorem filterMap_const_none {α β : Type} (l : List α) :
    l.filterMap (fun _ => (none : Option β)) = [] := by
  induction l with
  | nil => rfl
  | cons a l ih => rw [List.filterMap_cons]; simpa using ih

theorem flatten_map_single {α : Type} (g : ℕ → List α) (b : ℕ) : ∀ n : ℕ,
    ((List.range n).map (fun x => if x = b then g x else [])).flatten
      = if b < n then g b else [] := by
  intro n
  induction n with
  | zero => simp
  | succ n ih =>
    rw [List.range_succ, List.map_append, List.flatten_append, ih]
    by_cases hb : b = n
    · subst hb
      rw [if_neg (by omega), if_pos (by omega)]
      simp
    · simp only [List.map_cons, List.map_nil, List.flatten_cons, List.flatten_nil]
      rw [if_neg (show ¬n = b by omega)]
      by_cases hlt : b < n
      · rw [if_pos hlt, if_pos (by omega)]
        simp
      · rw [if_neg hlt, if_neg (by omega)]
        simp

theorem ctcBlankIndices_row (P : List (List ℕ)) (b : ℕ) :
    (ctcBlankIndices P).filterMap (fun bt => if bt.1 = b then some bt.2 else none)
      = if b < P.length then
          (List.range ((P.getD b []).length)).filter
            (fun t => decide ((P.getD b []).getD t 0 = blankIdx))
        else [] := by
  rw [ctcBlankIndices, List.filterMap_flatten, List.map_map]
  have hcongr : ∀ b2 ∈ List.range P.length,
      (List.filterMap (fun bt => if bt.1 = b then some bt.2 else none) ∘ fun b2 =>
        ((List.range ((P.getD b2 []).length)).filter
          (fun t => decide ((P.getD b2 []).getD t 0 = blankIdx))).map (fun t => (b2, t))) b2
      = (fun b2 => if b2 = b then
          (List.range ((P.getD b2 []).length)).filter
            (fun t => decide ((P.getD b2 []).getD t 0 = blankIdx))
        else []) b2 := by
    intro b2 _
    simp only [Function.comp_apply]
    rw [List.filterMap_map]
    by_cases hb2 : b2 = b
    · subst hb2
      rw [if_pos rfl]
      have : ((fun bt : ℕ × ℕ => if bt.1 = b2 then some bt.2 else none) ∘ fun t => (b2, t))
          = some := by
        funext t
        simp
      rw [this, List.filterMap_some]
    · rw [if_neg hb2]
      have : ((fun bt : ℕ × ℕ => if bt.1 = b then some bt.2 else none) ∘ fun t => (b2, t))
          = fun _ => none := by
        funext t
        simp [hb2]
      rw [this, filterMap_const_none]
  rw [List.map_congr_left hcongr]
  exact flatten_map_single
    (fun b2 => (List.range ((P.getD b2 []).length)).filter
      (fun t => decide ((P.getD b2 []).getD t 0 = blankIdx))) b P.length

theorem ctcLoop_lengths (l : List (ℕ × ℕ)) : ∀ s : List (List ℕ) × Tens3,
    (ctcLoop l s).1.length = s.1.length ∧ (ctcLoop l s).2.length = s.2.length := by
  induction l with
  | nil => intro s; exact ⟨rfl, rfl⟩
  | cons bt rest ih =>
    intro s
    have h := ih (ctcStep s bt)
    rw [show ctcLoop (bt :: rest) s = ctcLoop rest (ctcStep s bt) from rfl]
    rw [h.1, h.2, ctcStep]
    simp [List.length_set]

/-! ## CTC backend: closed form of a single row -/

theorem gRow_zero (ps : List ℕ) :
    gRow ps 0 = if ps.getD 0 0 = blankIdx then ps.getD (ps.length - 1) 0 else ps.getD 0 0 := rfl

theorem gRow_succ_eq (ps : List ℕ) (u : ℕ) :
    gRow ps (u + 1)
      = if ps.getD (u + 1) 0 = blankIdx then gRow ps u else ps.getD (u + 1) 0 := rfl

theorem gRow_eq_gPrev_of_blank (ps : List ℕ) (lo : ℕ) (h : ps.getD lo 0 = blankIdx) :
    gRow ps lo = gPrev ps lo := by
  cases lo with
  | zero => rw [gRow_zero, if_pos h, gPrev, if_pos rfl]
  | succ u =>
    rw [gRow_succ_eq, if_pos h, gPrev, if_neg (Nat.succ_ne_zero u), Nat.add_sub_cancel]

theorem gRow_eq_ps_of_nonblank (ps : List ℕ) (lo : ℕ) (h : ¬ps.getD lo 0 = blankIdx) :
    gRow ps lo = ps.getD lo 0 := by
  cases lo with
  | zero => rw [gRow_zero, if_neg h]
  | succ u => rw [gRow_succ_eq, if_neg h]

theorem rowLoop_inv (row : List (List ℚ)) (ps : List ℕ) (hps : ps = row.map argmaxIdx) :
    ∀ (k lo : ℕ) (fp : List ℕ) (fl : List (List ℚ)) (l : List ℕ),
      k = row.length - lo →
      l = (List.range' lo (row.length - lo)).filter
        (fun t => decide (ps.getD t 0 = blankIdx)) →
      fp.length = row.length → fl.length = row.length →
      (∀ u, u < row.length → fp.getD u 0 = if u < lo then gRow ps u else ps.getD u 0) →
      (∀ u, u < row.length → fl.getD u [] = if u < lo then mutCol ps row u else row.getD u []) →
      (rowLoop l (fp, fl)).1.length = row.length
      ∧ (rowLoop l (fp, fl)).2.length = row.length
      ∧ (∀ u, u < row.length → (rowLoop l (fp, fl)).1.getD u 0 = gRow ps u)
      ∧ (∀ u, u < row.length → (rowLoop l (fp, fl)).2.getD u [] = mutCol ps row u) := by
  have hps_len : ps.length = row.length := by rw [hps, List.length_map]
  intro k
  induction k with
  | zero =>
    intro lo fp fl l hk hl hfpl hfll hfp hfl
    have hT : row.length ≤ lo := by omega
    rw [show row.length - lo = 0 by omega] at hl
    rw [show List.range' lo 0 = [] from rfl] at hl
    rw [show ([] : List ℕ).filter (fun t => decide (ps.getD t 0 = blankIdx)) = [] from rfl] at hl
    subst hl
    refine ⟨hfpl, hfll, ?_, ?_⟩
    · intro u hu
      have := hfp u hu
      rwa [if_pos (by omega)] at this
    · intro u hu
      have := hfl u hu
      rwa [if_pos (by omega)] at this
  | succ k ih =>
    intro lo fp fl l hk hl hfpl hfll hfp hfl
    have hloT : lo < row.length := by omega
    rw [show row.length - lo = k + 1 by omega, List.range'_succ] at hl
    by_cases hblank : ps.getD lo 0 = blankIdx
    · rw [List.filter_cons, if_pos (by simpa using hblank)] at hl
      subst hl
      rw [show rowLoop (lo :: (List.range' (lo + 1) k).filter
            (fun t => decide (ps.getD t 0 = blankIdx))) (fp, fl)
          = rowLoop ((List.range' (lo + 1) k).filter
            (fun t => decide (ps.getD t 0 = blankIdx))) (rowStep (fp, fl) lo) from rfl]
      have hprev : fp.getD (if lo = 0 then fp.length - 1 else lo - 1) 0 = gPrev ps lo := by
        by_cases h0 : lo = 0
        · subst h0
          rw [if_pos rfl, hfpl]
          have hx := hfp (row.length - 1) (by omega)
          rw [if_neg (by omega)] at hx
          rw [hx, gPrev, if_pos rfl, hps_len]
        · rw [if_neg h0]
          have hx := hfp (lo - 1) (by omega)
          rw [if_pos (by omega)] at hx
          rw [hx, gPrev, if_neg h0]
      have hstep1 : (rowStep (fp, fl) lo).1 = fp.set lo (gPrev ps lo) := by
        rw [rowStep]
        simp only []
        rw [hprev]
      have hstep2 : (rowStep (fp, fl) lo).2
          = fl.set lo ((row.getD lo []).set (gPrev ps lo) ((row.getD lo []).getD blankIdx 0)) := by
        rw [rowStep]
        simp only []
        rw [hprev]
        have hcol : fl.getD lo [] = row.getD lo [] := by
          have hx := hfl lo hloT
          rwa [if_neg (by omega)] at hx
        rw [hcol]
      have h1 : (rowStep (fp, fl) lo).1.length = row.length := by
        rw [hstep1, List.length_set, hfpl]
      have h2 : (rowStep (fp, fl) lo).2.length = row.length := by
        rw [hstep2, List.length_set, hfll]
      have h3 : ∀ u, u < row.length →
          (rowStep (fp, fl) lo).1.getD u 0
            = if u < lo + 1 then gRow ps u else ps.getD u 0 := by
        intro u hu
        rw [hstep1]
        by_cases hu_lo : u = lo
        · subst hu_lo
          rw [getD_set_self fp u _ 0 (by omega), if_pos (by omega),
            gRow_eq_gPrev_of_blank ps u hblank]
        · rw [getD_set_ne fp lo u _ 0 (fun hcontra => hu_lo hcontra.symm)]
          have hx := hfp u hu
          rcases Nat.lt_or_ge u lo with hcase | hcase
          · rw [if_pos (show u < lo + 1 by omega)]
            rw [if_pos hcase] at hx
            exact hx
          · rw [if_neg (show ¬u < lo + 1 by omega)]
            rw [if_neg (by omega)] at hx
            exact hx
      have h4 : ∀ u, u < row.length →
          (rowStep (fp, fl) lo).2.getD u []
            = if u < lo + 1 then mutCol ps row u else row.getD u [] := by
        intro u hu
        rw [hstep2]
        by_cases hu_lo : u = lo
        · subst hu_lo
          rw [getD_set_self fl u _ [] (by omega), if_pos (by omega), mutCol, if_pos hblank]
        · rw [getD_set_ne fl lo u _ [] (fun hcontra => hu_lo hcontra.symm)]
          have hx := hfl u hu
          rcases Nat.lt_or_ge u lo with hcase | hcase
          · rw [if_pos (show u < lo + 1 by omega)]
            rw [if_pos hcase] at hx
            exact hx
          · rw [if_neg (show ¬u < lo + 1 by omega)]
            rw [if_neg (by omega)] at hx
            exact hx
      exact ih (lo + 1) (rowStep (fp, fl) lo).1 (rowStep (fp, fl) lo).2 _
        (by omega) (by rw [show row.length - (lo + 1) = k by omega]) h1 h2 h3 h4
    · rw [List.filter_cons, if_neg (by simpa using hblank)] at hl
      have h3 : ∀ u, u < row.length →
          fp.getD u 0 = if u < lo + 1 then gRow ps u else ps.getD u 0 := by
        intro u hu
        have hx := hfp u hu
        by_cases hu_lo : u = lo
        · subst hu_lo
          rw [if_neg (by omega)] at hx
          rw [hx, if_pos (by omega), gRow_eq_ps_of_nonblank ps u hblank]
        · rcases Nat.lt_or_ge u lo with hcase | hcase
          · rw [if_pos (show u < lo + 1 by omega)]
            rw [if_pos hcase] at hx
            exact hx
          · rw [if_neg (show ¬u < lo + 1 by omega)]
            rw [if_neg (by omega)] at hx
            exact hx
      have h4 : ∀ u, u < row.length →
          fl.getD u [] = if u < lo + 1 then mutCol ps row u else row.getD u [] := by
        intro u hu
        have hx := hfl u hu
        by_cases hu_lo : u = lo
        · subst hu_lo
          rw [if_neg (by omega)] at hx
          rw [hx, if_pos (by omega), mutCol, if_neg hblank]
        · rcases Nat.lt_or_ge u lo with hcase | hcase
          · rw [if_pos (show u < lo + 1 by omega)]
            rw [if_pos hcase] at hx
            exact hx
          · rw [if_neg (show ¬u < lo + 1 by omega)]
            rw [if_neg (by omega)] at hx
            exact hx
      exact ih (lo + 1) fp fl _ (by omega)
        (by rw [hl, show row.length - (lo + 1) = k by omega]) hfpl hfll h3 h4

theorem getD_dropLast_of_lt {α : Type} (l : List α) (i : ℕ) (d : α) (h : i < l.length - 1) :
    l.dropLast.getD i d = l.getD i d := by
  rw [List.getD_eq_getElem _ _ (by rw [List.length_dropLast]; omega),
    List.getD_eq_getElem _ _ (by omega)]
  exact List.getElem_dropLast l i _

/-- Closed form of `_backend` on one batch row: the final decoded
predictions are `gRow` and the mutated columns are `mutCol`. -/
theorem ctc_char (x : Tens3) (b : ℕ) :
    ((ctcFinalPreds x).getD b []).length = (x.getD b []).length
    ∧ ((ctcMutated x).getD b []).length = (x.getD b []).length
    ∧ (∀ u, u < (x.getD b []).length →
        ((ctcFinalPreds x).getD b []).getD u 0 = gRow ((x.getD b []).map argmaxIdx) u)
    ∧ (∀ u, u < (x.getD b []).length →
        ((ctcMutated x).getD b []).getD u []
          = mutCol ((x.getD b []).map argmaxIdx) (x.getD b []) u) := by
  have hrow := ctcLoop_row (ctcBlankIndices (ctcArgmax x)) (ctcArgmax x) x b
  rw [ctcBlankIndices_row] at hrow
  have hfst := congrArg Prod.fst hrow
  have hsnd := congrArg Prod.snd hrow
  simp only [] at hfst hsnd
  rcases Nat.lt_or_ge b (ctcArgmax x).length with hblt | hbge
  · rw [if_pos hblt] at hfst hsnd
    rw [getD_map_row x b] at hfst hsnd
    have hinv := rowLoop_inv (x.getD b []) ((x.getD b []).map argmaxIdx) rfl
      (x.getD b []).length 0
      ((x.getD b []).map argmaxIdx) (x.getD b [])
      ((List.range (((x.getD b []).map argmaxIdx).length)).filter
        (fun t => decide (((x.getD b []).map argmaxIdx).getD t 0 = blankIdx)))
      (by omega)
      (by
        rw [List.length_map, Nat.sub_zero, List.range_eq_range'])
      (by rw [List.length_map]) rfl
      (by intro u hu; rw [if_neg (by omega)])
      (by intro u hu; rw [if_neg (by omega)])
    rw [show ctcFinalPreds x = (ctcFinal x).1 from rfl, show ctcMutated x = (ctcFinal x).2 from rfl,
      ctcFinal]
    rw [hfst, hsnd]
    exact hinv
  · rw [if_neg (by omega)] at hfst hsnd
    have hxb : x.getD b [] = [] := by
      apply getD_of_le
      rw [ctcArgmax, List.length_map] at hbge
      exact hbge
    have hpsb : (ctcArgmax x).getD b [] = [] := by
      apply getD_of_le
      exact hbge
    rw [show ctcFinalPreds x = (ctcFinal x).1 from rfl, show ctcMutated x = (ctcFinal x).2 from rfl,
      ctcFinal, hfst, hsnd, rowLoop]
    simp only [List.foldl_nil]
    rw [hxb, hpsb]
    refine ⟨by simp, by simp, ?_, ?_⟩
    · intro u hu
      simp at hu
    · intro u hu
      simp at hu

/-- C2: when the arg-max at the very first timestep of a batch row is
the blank class, `_backend` reads `predictions[batch, -1]` — the
arg-max of the row's last timestep — as the previous prediction: the
decoded prediction at `t = 0` becomes that last-timestep arg-max, and
the logit of that class at `t = 0` is overwritten with the blank
channel's logit at `t = 0`. -/
theorem C2_ctc_first_timestep_wraparound (x : Tens3) (b : ℕ)
    (hb : argmaxIdx ((x.getD b []).getD 0 []) = blankIdx) :
    ((ctcFinalPreds x).getD b []).getD 0 0
      = argmaxIdx ((x.getD b []).getD ((x.getD b []).length - 1) [])
    ∧ ((ctcMutated x).getD b []).getD 0 []
      = ((x.getD b []).getD 0 []).set
          (argmaxIdx ((x.getD b []).getD ((x.getD b []).length - 1) []))
          (((x.getD b []).getD 0 []).getD blankIdx 0) := by
  have hchar := ctc_char x b
  have hrow_ne : x.getD b [] ≠ [] := by
    intro hcontra
    rw [hcontra] at hb
    simp [argmaxIdx, blankIdx] at hb
  have hT : 0 < (x.getD b []).length := List.length_pos.mpr hrow_ne
  have hps_len : ((x.getD b []).map argmaxIdx).length = (x.getD b []).length :=
    List.length_map _ _
  have hps0 : ((x.getD b []).map argmaxIdx).getD 0 0 = blankIdx := by
    rw [getD_map_of_lt argmaxIdx (x.getD b []) 0 [] 0 hT]
    exact hb
  have hlast : ((x.getD b []).map argmaxIdx).getD ((x.getD b []).length - 1) 0
      = argmaxIdx ((x.getD b []).getD ((x.getD b []).length - 1) []) := by
    rw [getD_map_of_lt argmaxIdx (x.getD b []) _ [] 0 (by omega)]
  constructor
  · rw [hchar.2.2.1 0 hT, gRow_zero, if_pos hps0, hps_len, hlast]
  · rw [hchar.2.2.2 0 hT, mutCol, if_pos hps0, gPrev, if_pos rfl, hps_len, hlast]

/-- C2 (witness): one batch row, two timesteps over 41 channels, with
the blank class predicted at the first timestep and class 3 at the
last. -/
theorem C2_ctc_first_timestep_wraparound_witness :
    (argmaxIdx ((([[List.replicate 40 (0:ℚ) ++ [1], [0, 0, 0, 5] ++ List.replicate 37 (0:ℚ)]]
        : Tens3).getD 0 []).getD 0 []) = blankIdx)
    ∧ ((ctcFinalPreds [[List.replicate 40 (0:ℚ) ++ [1],
          [0, 0, 0, 5] ++ List.replicate 37 (0:ℚ)]]).getD 0 []).getD 0 0
      = argmaxIdx ((([[List.replicate 40 (0:ℚ) ++ [1],
          [0, 0, 0, 5] ++ List.replicate 37 (0:ℚ)]] : Tens3).getD 0 []).getD
            ((([[List.replicate 40 (0:ℚ) ++ [1],
              [0, 0, 0, 5] ++ List.replicate 37 (0:ℚ)]] : Tens3).getD 0 []).length - 1) []) :=
  ⟨by decide,
   (C2_ctc_first_timestep_wraparound
     [[List.replicate 40 (0:ℚ) ++ [1], [0, 0, 0, 5] ++ List.replicate 37 (0:ℚ)]] 0
     (by decide)).1⟩

/-- C9: a blank arg-max at timestep `t > 0` makes the decoded
prediction at `t` equal the decoded prediction at `t - 1`; the mutated
column at `t` is the original column with the channel of the decoded
`t - 1` prediction overwritten by the original blank-channel logit, and
when that channel is a real (non-blank) class, the backend's output
(after dropping the blank channel) holds exactly that value there. -/
theorem C9_ctc_blank_collapse (x : Tens3) (b t : ℕ) (ht : 0 < t)
    (hb : argmaxIdx ((x.getD b []).getD t []) = blankIdx) :
    ((ctcFinalPreds x).getD b []).getD t 0 = ((ctcFinalPreds x).getD b []).getD (t - 1) 0
    ∧ ((ctcMutated x).getD b []).getD t []
      = ((x.getD b []).getD t []).set (((ctcFinalPreds x).getD b []).getD (t - 1) 0)
          (((x.getD b []).getD t []).getD blankIdx 0)
    ∧ (((ctcFinalPreds x).getD b []).getD (t - 1) 0 < blankIdx →
        ((x.getD b []).getD t []).length = blankIdx + 1 →
        (((ctcBackend x).getD b []).getD t []).getD
            (((ctcFinalPreds x).getD b []).getD (t - 1) 0) 0
          = ((x.getD b []).getD t []).getD blankIdx 0) := by
  obtain ⟨u, rfl⟩ : ∃ u, t = u + 1 := ⟨t - 1, by omega⟩
  have hchar := ctc_char x b
  have hcol_ne : (x.getD b []).getD (u + 1) [] ≠ [] := by
    intro hcontra
    rw [hcontra] at hb
    simp [argmaxIdx, blankIdx] at hb
  have htT : u + 1 < (x.getD b []).length := by
    by_contra hcontra
    rw [getD_of_le _ _ _ (by omega)] at hcol_ne
    exact hcol_ne rfl
  have hbx : b < x.length := by
    by_contra hcontra
    rw [getD_of_le x [] b (by omega)] at htT
    simp at htT
  have hps : ((x.getD b []).map argmaxIdx).getD (u + 1) 0 = blankIdx := by
    rw [getD_map_of_lt argmaxIdx (x.getD b []) _ [] 0 htT]
    exact hb
  have hfin_t := hchar.2.2.1 (u + 1) htT
  have hfin_u := hchar.2.2.1 u (by omega)
  have hmut_t := hchar.2.2.2 (u + 1) htT
  have hg : gRow ((x.getD b []).map argmaxIdx) (u + 1)
      = gRow ((x.getD b []).map argmaxIdx) u := by
    rw [gRow_succ_eq, if_pos hps]
  have h1 : ((ctcFinalPreds x).getD b []).getD (u + 1) 0
      = ((ctcFinalPreds x).getD b []).getD (u + 1 - 1) 0 := by
    rw [Nat.add_sub_cancel, hfin_t, hfin_u, hg]
  have h2 : ((ctcMutated x).getD b []).getD (u + 1) []
      = ((x.getD b []).getD (u + 1) []).set
          (((ctcFinalPreds x).getD b []).getD (u + 1 - 1) 0)
          (((x.getD b []).getD (u + 1) []).getD blankIdx 0) := by
    rw [Nat.add_sub_cancel, hfin_u, hmut_t, mutCol, if_pos hps, gPrev,
      if_neg (Nat.succ_ne_zero u), Nat.add_sub_cancel]
  refine ⟨h1, h2, ?_⟩
  intro hc hw
  have hmut_len : (ctcMutated x).length = x.length :=
    (ctcLoop_lengths (ctcBlankIndices (ctcArgmax x)) (ctcArgmax x, x)).2
  have hback : (ctcBackend x).getD b []
      = ((ctcMutated x).getD b []).map (fun col => col.dropLast) := by
    rw [ctcBackend, getD_map_of_lt _ (ctcMutated x) b [] [] (by omega)]
  have hmutrow_len : ((ctcMutated x).getD b []).length = (x.getD b []).length := hchar.2.1
  rw [hback, getD_map_of_lt _ ((ctcMutated x).getD b []) (u + 1) [] [] (by omega), h2]
  rw [Nat.add_sub_cancel] at h2 ⊢
  have hset_len : (((x.getD b []).getD (u + 1) []).set
      (((ctcFinalPreds x).getD b []).getD u 0)
      (((x.getD b []).getD (u + 1) []).getD blankIdx 0)).length = blankIdx + 1 := by
    rw [List.length_set, hw]
  rw [getD_dropLast_of_lt _ _ 0 (by rw [hset_len]; omega)]
  rw [Nat.add_sub_cancel] at hc
  exact getD_set_self _ _ _ 0 (by rw [hw]; omega)

/-- C9 (witness): one batch row with class 3 at `t = 0` and the blank
class at `t = 1`; the decoded prediction at `t = 1` is 3 and channel 3
of the output at `t = 1` holds the original blank logit. -/
theorem C9_ctc_blank_collapse_witness :
    0 < 1
    ∧ (argmaxIdx ((([[[0, 0, 0, 5] ++ List.replicate 37 (0:ℚ),
        List.replicate 40 (0:ℚ) ++ [1]]] : Tens3).getD 0 []).getD 1 []) = blankIdx)
    ∧ ((ctcFinalPreds [[[0, 0, 0, 5] ++ List.replicate 37 (0:ℚ),
        List.replicate 40 (0:ℚ) ++ [1]]]).getD 0 []).getD 1 0
      = ((ctcFinalPreds [[[0, 0, 0, 5] ++ List.replicate 37 (0:ℚ),
        List.replicate 40 (0:ℚ) ++ [1]]]).getD 0 []).getD (1 - 1) 0 :=
  ⟨Nat.zero_lt_one, by decide,
   (C9_ctc_blank_collapse
     [[[0, 0, 0, 5] ++ List.replicate 37 (0:ℚ), List.replicate 40 (0:ℚ) ++ [1]]] 0 1
     Nat.zero_lt_one (by decide)).1⟩

/-! ## CTC backend: equivalence of `_backend` and `_backend_old` -/

theorem hSeed_shift (c : ℕ) (col : List ℚ) (rest : List (List ℚ)) : ∀ u : ℕ,
    hSeed (if argmaxIdx col = col.length - 1 then c else argmaxIdx col) rest u
      = hSeed c (col :: rest) (u + 1) := by
  intro u
  induction u with
  | zero =>
    rw [show hSeed c (col :: rest) (0 + 1)
        = (if argmaxIdx ((col :: rest).getD 0 []) = ((col :: rest).getD 0 []).length - 1
           then hSeed c (col :: rest) 0 else argmaxIdx ((col :: rest).getD 0 [])) from rfl]
    rw [List.getD_cons_zero]
    rfl
  | succ u ih =>
    rw [show hSeed c (col :: rest) (u + 1 + 1)
        = (if argmaxIdx ((col :: rest).getD (u + 1) [])
              = ((col :: rest).getD (u + 1) []).length - 1
           then hSeed c (col :: rest) (u + 1)
           else argmaxIdx ((col :: rest).getD (u + 1) [])) from rfl]
    rw [List.getD_cons_succ]
    rw [show hSeed (if argmaxIdx col = col.length - 1 then c else argmaxIdx col) rest (u + 1)
        = (if argmaxIdx (rest.getD u []) = (rest.getD u []).length - 1
           then hSeed (if argmaxIdx col = col.length - 1 then c else argmaxIdx col) rest u
           else argmaxIdx (rest.getD u [])) from rfl]
    rw [ih]

theorem ctcOldRow_char (cols : List (List ℚ)) : ∀ c : ℕ,
    (ctcOldRow (some c) cols).length = cols.length
    ∧ ∀ u, u < cols.length →
      (ctcOldRow (some c) cols).getD u []
        = if argmaxIdx (cols.getD u []) = (cols.getD u []).length - 1 then
            (cols.getD u []).set (hSeed c cols u)
              ((cols.getD u []).getD ((cols.getD u []).length - 1) 0)
          else cols.getD u [] := by
  induction cols with
  | nil =>
    intro c
    exact ⟨rfl, by intro u hu; simp at hu⟩
  | cons col rest ih =>
    intro c
    have hstep : ctcOldRow (some c) (col :: rest)
        = if argmaxIdx col = col.length - 1
          then (col.set c (col.getD (col.length - 1) 0)) :: ctcOldRow (some c) rest
          else col :: ctcOldRow (some (argmaxIdx col)) rest := rfl
    by_cases hb : argmaxIdx col = col.length - 1
    · rw [hstep, if_pos hb]
      constructor
      · rw [List.length_cons, (ih c).1, List.length_cons]
      · intro u hu
        cases u with
        | zero =>
          rw [List.getD_cons_zero, List.getD_cons_zero, if_pos hb]
          rfl
        | succ u =>
          have hu2 : u < rest.length := by
            simp only [List.length_cons] at hu
            omega
          rw [List.getD_cons_succ, List.getD_cons_succ, (ih c).2 u hu2]
          rw [show hSeed c (col :: rest) (u + 1)
              = hSeed (if argmaxIdx col = col.length - 1 then c else argmaxIdx col) rest u
            from (hSeed_shift c col rest u).symm]
          rw [if_pos hb]
    · rw [hstep, if_neg hb]
      constructor
      · rw [List.length_cons, (ih (argmaxIdx col)).1, List.length_cons]
      · intro u hu
        cases u with
        | zero =>
          rw [List.getD_cons_zero, List.getD_cons_zero, if_neg hb]
        | succ u =>
          have hu2 : u < rest.length := by
            simp only [List.length_cons] at hu
            omega
          rw [List.getD_cons_succ, List.getD_cons_succ, (ih (argmaxIdx col)).2 u hu2]
          rw [show hSeed c (col :: rest) (u + 1)
              = hSeed (if argmaxIdx col = col.length - 1 then c else argmaxIdx col) rest u
            from (hSeed_shift c col rest u).symm]
          rw [if_neg hb]

theorem hSeed_eq_gRow (col0 : List ℚ) (rest : List (List ℚ))
    (h0 : ¬argmaxIdx col0 = blankIdx)
    (hw : ∀ col ∈ col0 :: rest, col.length = blankIdx + 1) :
    ∀ u, u < (col0 :: rest).length →
      hSeed (argmaxIdx col0) rest u = gRow ((col0 :: rest).map argmaxIdx) u := by
  intro u
  induction u with
  | zero =>
    intro _
    rw [show hSeed (argmaxIdx col0) rest 0 = argmaxIdx col0 from rfl, gRow_zero]
    rw [show ((col0 :: rest).map argmaxIdx).getD 0 0 = argmaxIdx col0 from by
      rw [List.map_cons, List.getD_cons_zero]]
    rw [if_neg h0]
  | succ u ih =>
    intro hu
    have hu2 : u < rest.length := by
      simp only [List.length_cons] at hu
      omega
    have hcolmem : rest.getD u [] ∈ col0 :: rest := by
      rw [List.getD_eq_getElem rest [] hu2]
      exact List.mem_cons_of_mem col0 (List.getElem_mem hu2)
    have hlen41 : (rest.getD u []).length = blankIdx + 1 := hw _ hcolmem
    rw [show hSeed (argmaxIdx col0) rest (u + 1)
        = (if argmaxIdx (rest.getD u []) = (rest.getD u []).length - 1
           then hSeed (argmaxIdx col0) rest u else argmaxIdx (rest.getD u [])) from rfl]
    rw [gRow_succ_eq]
    rw [show ((col0 :: rest).map argmaxIdx).getD (u + 1) 0 = argmaxIdx (rest.getD u []) from by
      rw [List.map_cons, List.getD_cons_succ, getD_map_of_lt argmaxIdx rest u [] 0 hu2]]
    rw [hlen41, show blankIdx + 1 - 1 = blankIdx from rfl]
    by_cases hc : argmaxIdx (rest.getD u []) = blankIdx
    · rw [if_pos hc, if_pos hc, ih (by simp only [List.length_cons]; omega)]
    · rw [if_neg hc, if_neg hc]

theorem ctcOldRow_none_char (cols : List (List ℚ))
    (h0 : cols ≠ [] → ¬argmaxIdx (cols.getD 0 []) = blankIdx)
    (hw : ∀ col ∈ cols, col.length = blankIdx + 1) :
    (ctcOldRow none cols).length = cols.length
    ∧ ∀ u, u < cols.length →
      (ctcOldRow none cols).getD u [] = mutCol (cols.map argmaxIdx) cols u := by
  cases cols with
  | nil =>
    exact ⟨rfl, by intro u hu; simp at hu⟩
  | cons col0 rest =>
    have h0c : ¬argmaxIdx col0 = blankIdx := by
      have := h0 (by simp)
      rwa [List.getD_cons_zero] at this
    have hstep : ctcOldRow none (col0 :: rest)
        = col0 :: ctcOldRow (some (argmaxIdx col0)) rest := rfl
    have hch := ctcOldRow_char rest (argmaxIdx col0)
    constructor
    · rw [hstep, List.length_cons, hch.1, List.length_cons]
    · intro u hu
      cases u with
      | zero =>
        rw [hstep, List.getD_cons_zero, mutCol]
        rw [show ((col0 :: rest).map argmaxIdx).getD 0 0 = argmaxIdx col0 from by
          rw [List.map_cons, List.getD_cons_zero]]
        rw [if_neg h0c, List.getD_cons_zero]
      | succ u =>
        have hu2 : u < rest.length := by
          simp only [List.length_cons] at hu
          omega
        have hcolmem : rest.getD u [] ∈ col0 :: rest := by
          rw [List.getD_eq_getElem rest [] hu2]
          exact List.mem_cons_of_mem col0 (List.getElem_mem hu2)
        have hlen41 : (rest.getD u []).length = blankIdx + 1 := hw _ hcolmem
        rw [hstep, List.getD_cons_succ, hch.2 u hu2, mutCol]
        rw [show ((col0 :: rest).map argmaxIdx).getD (u + 1) 0 = argmaxIdx (rest.getD u []) from by
          rw [List.map_cons, List.getD_cons_succ, getD_map_of_lt argmaxIdx rest u [] 0 hu2]]
        rw [List.getD_cons_succ, hlen41, show blankIdx + 1 - 1 = blankIdx from rfl]
        by_cases hc : argmaxIdx (rest.getD u []) = blankIdx
        · rw [if_pos hc, if_pos hc]
          rw [hSeed_eq_gRow col0 rest h0c hw u (by simp only [List.length_cons]; omega)]
          rw [gPrev, if_neg (Nat.succ_ne_zero u), Nat.add_sub_cancel]
        · rw [if_neg hc, if_neg hc]

/-- C10: away from the first-timestep blank edge case, `_backend` and
`_backend_old` are extensionally equal: on any `[B, 41, T]` input in
which no batch row has a blank arg-max at timestep 0, both produce the
same mutated logits with the blank channel dropped. -/
theorem C10_backends_equivalent (x : Tens3)
    (hw : ∀ row ∈ x, ∀ col ∈ row, col.length = blankIdx + 1)
    (h0 : ∀ row ∈ x, row ≠ [] → ¬argmaxIdx (row.getD 0 []) = blankIdx) :
    ctcBackend x = ctcBackendOld x := by
  have hmut_len : (ctcMutated x).length = x.length :=
    (ctcLoop_lengths (ctcBlankIndices (ctcArgmax x)) (ctcArgmax x, x)).2
  have hmain : ctcMutated x = x.map (fun row => ctcOldRow none row) := by
    apply List.ext_getElem
    · rw [hmut_len, List.length_map]
    · intro b h1 h2
      have hb : b < x.length := by rwa [List.length_map] at h2
      rw [← List.getD_eq_getElem (ctcMutated x) [] h1,
        ← List.getD_eq_getElem (x.map (fun row => ctcOldRow none row)) [] h2]
      rw [getD_map_of_lt (fun row => ctcOldRow none row) x b [] [] hb]
      have hrowmem : x.getD b [] ∈ x := by
        rw [List.getD_eq_getElem x [] hb]
        exact List.getElem_mem hb
      have hchar := ctc_char x b
      have hold := ctcOldRow_none_char (x.getD b []) (h0 _ hrowmem) (hw _ hrowmem)
      apply List.ext_getElem
      · rw [hchar.2.1, hold.1]
      · intro u hu1 hu2
        have hu : u < (x.getD b []).length := by rwa [hchar.2.1] at hu1
        rw [← List.getD_eq_getElem ((ctcMutated x).getD b []) [] hu1,
          ← List.getD_eq_getElem (ctcOldRow none (x.getD b [])) [] hu2]
        rw [hchar.2.2.2 u hu, hold.2 u hu]
  rw [ctcBackend, hmain, ctcBackendOld]

/-- C10 (witness): one batch row with class 3 at `t = 0` and a blank at
`t = 1`, over 41 channels. -/
theorem C10_backends_equivalent_witness :
    (∀ row ∈ ([[[0, 0, 0, 5] ++ List.replicate 37 (0:ℚ),
        List.replicate 40 (0:ℚ) ++ [1]]] : Tens3),
      ∀ col ∈ row, col.length = blankIdx + 1)
    ∧ (∀ row ∈ ([[[0, 0, 0, 5] ++ List.replicate 37 (0:ℚ),
        List.replicate 40 (0:ℚ) ++ [1]]] : Tens3),
      row ≠ [] → ¬argmaxIdx (row.getD 0 []) = blankIdx)
    ∧ ctcBackend [[[0, 0, 0, 5] ++ List.replicate 37 (0:ℚ), List.replicate 40 (0:ℚ) ++ [1]]]
      = ctcBackendOld [[[0, 0, 0, 5] ++ List.replicate 37 (0:ℚ),
          List.replicate 40 (0:ℚ) ++ [1]]] :=
  ⟨by decide, by decide,
   C10_backends_equivalent
     [[[0, 0, 0, 5] ++ List.replicate 37 (0:ℚ), List.replicate 40 (0:ℚ) ++ [1]]]
     (by decide) (by decide)⟩

end Ppgs
